import Mathlib

/-!
Verification of the emote-psb PSB container codec.

This file shallowly embeds the Rust sources of the `emote-psb` crate
(value codec, number codec, name-trie codec, offset block, writer checksum,
reader resource loading) and proves or refutes the specified properties.

Conventions of the embedding:
* Bytes are `Nat` values; writers only produce values `< 256`.
* Rust `u64`/`i64` arithmetic is `Nat`/`Int` with explicit reductions
  modulo `2^64` where the source can overflow.  Where the source's
  release-mode (two's-complement wrapping) semantics and debug-mode
  (panicking) semantics differ, the wrapping semantics is embedded and the
  checked variant is modelled separately where a claim depends on it.
* A fallible Rust function returning `Result` is embedded with result type
  `RRes`, which also has an explicit `panicked` outcome used to model Rust
  panics (slice-index out of bounds, `Option::unwrap` on `None`).
* Streams (`Read + Seek`) are a byte list together with a cursor position.
-/

namespace EmotePsb

/-- Error kinds of `PsbErrorKind` in `src/lib.rs`. -/
inductive PsbErr where
  | io
  | invalidFile
  | invalidHeader
  | unknownHeaderVersion
  | invalidIndex
  | invalidPSBValue
  | invalidOffsetTable
  | custom
  deriving DecidableEq, Repr

/-- Outcome of an embedded Rust computation: success, a returned error, or a
panic (index out of bounds / `unwrap` of `None`). -/
inductive RRes (ε : Type) (α : Type) where
  | ok (a : α)
  | err (e : ε)
  | panicked
  deriving DecidableEq, Repr

/-- Monadic bind for `RRes`. -/
def RRes.bind {ε α β} : RRes ε α → (α → RRes ε β) → RRes ε β
  | .ok a, f => f a
  | .err e, _ => .err e
  | .panicked, _ => .panicked

instance {ε} : Monad (RRes ε) where
  pure := .ok
  bind := RRes.bind

@[simp] theorem RRes.bind_ok {ε α β} (a : α) (f : α → RRes ε β) :
    RRes.bind (.ok a) f = f a := rfl

@[simp] theorem RRes.bind_err {ε α β} (e : ε) (f : α → RRes ε β) :
    RRes.bind (.err e) f = .err e := rfl

@[simp] theorem RRes.bind_panicked {ε α β} (f : α → RRes ε β) :
    RRes.bind .panicked f = .panicked := rfl

@[simp] theorem RRes.mbind_ok {ε α β} (a : α) (f : α → RRes ε β) :
    ((RRes.ok a : RRes ε α) >>= f) = f a := rfl

abbrev PRes (α : Type) := RRes PsbErr α

/-- A seekable byte stream: immutable contents plus a cursor. -/
structure BStream where
  data : List Nat
  pos : Nat
  deriving DecidableEq, Repr

namespace BStream

/-- Rust `stream.read_u8()`: one byte at the cursor, `Io` error at EOF. -/
def readU8 (s : BStream) : PRes (Nat × BStream) :=
  match s.data.get? s.pos with
  | some b => .ok (b, ⟨s.data, s.pos + 1⟩)
  | none => .err .io

/-- Rust `read_exact` into an `n`-byte buffer: `Io` error when fewer than
`n` bytes remain. -/
def readExact (s : BStream) (n : Nat) : PRes (List Nat × BStream) :=
  if s.pos + n ≤ s.data.length then
    .ok ((s.data.drop s.pos).take n, ⟨s.data, s.pos + n⟩)
  else .err .io

/-- Rust `stream.seek(SeekFrom::Start p)`. -/
def seekTo (s : BStream) (p : Nat) : BStream := ⟨s.data, p⟩

@[simp] theorem seekTo_data (s : BStream) (p : Nat) : (s.seekTo p).data = s.data := rfl

@[simp] theorem seekTo_pos (s : BStream) (p : Nat) : (s.seekTo p).pos = p := rfl

end BStream

/-- Over-64-bit modulus `2 ^ 64` as a literal (kernel-friendly). -/
def U64M : Nat := 18446744073709551616

/-- Half of `2 ^ 64`, i.e. `2 ^ 63`. -/
def I64MIN : Nat := 9223372036854775808

theorem U64M_eq : U64M = 2 ^ 64 := by decide
theorem I64MIN_eq : I64MIN = 2 ^ 63 := by decide

/-- Little-endian byte serialization: the first `n` bytes of the infinite
little-endian expansion of `x` (matches Rust `x.to_le_bytes()[..n]` for a
`u64` value `x` and `n ≤ 8`). -/
def leBytes : Nat → Nat → List Nat
  | 0, _ => []
  | n + 1, x => x % 256 :: leBytes n (x / 256)

/-- Little-endian byte deserialization (Rust `u64::from_le_bytes` on a
zero-padded buffer). -/
def leToNat : List Nat → Nat
  | [] => 0
  | b :: bs => b % 256 + 256 * leToNat bs

@[simp] theorem leBytes_length (n x : Nat) : (leBytes n x).length = n := by
  induction n generalizing x with
  | zero => rfl
  | succ n ih => simp [leBytes, ih]

theorem leToNat_leBytes (n x : Nat) : leToNat (leBytes n x) = x % 256 ^ n := by
  induction n generalizing x with
  | zero => simp [leBytes, leToNat, Nat.mod_one]
  | succ n ih =>
    simp only [leBytes, leToNat, ih, Nat.mod_mod_of_dvd x (dvd_refl 256)]
    rw [pow_succ, Nat.mul_comm (256 ^ n) 256, Nat.mod_mul]

/-- Reinterpret a `u64` bit pattern (`< 2^64`) as an `i64` value (Rust `as i64`). -/
def u64ToI64 (u : Nat) : Int :=
  if u < I64MIN then (u : Int) else (u : Int) - (U64M : Int)

/-- Reinterpret an `i64` value as a `u64` bit pattern (Rust `as u64`). -/
def i64ToU64 (i : Int) : Nat := (i % (U64M : Int)).toNat

/-- Two's-complement wrap into the `i64` range (Rust release-mode wrapping
arithmetic). -/
def wrapI64 (i : Int) : Int := (i + I64MIN) % U64M - I64MIN

namespace PsbNumber

/-- `PsbNumber::read_uint` in `src/types/number.rs`.  Returns the claimed
read count and the value.  Note: the `number_size == 0` arm claims one byte
read while consuming none from the stream, as the source does. -/
def readUint (numberSize : Nat) (s : BStream) : PRes (Nat × Nat × BStream) :=
  if numberSize = 0 then .ok (1, 0, s)
  else if numberSize ≤ 8 then
    (s.readExact numberSize).bind fun bs1 => .ok (numberSize, leToNat bs1.1, bs1.2)
  else .err .invalidPSBValue

/-- Sign-extension step of `PsbNumber::read_integer` (`let max = ...; let
number = ...`), split out by name for the proofs below.  For
`number_size = 8` the source computes `1_u64 << 64`, which overflows; this
embedding uses Rust's release-mode semantics (shift amount masked modulo 64,
wrapping `u64` subtraction, wrapping `i64` negation); a debug build panics
at the shift instead. -/
def signExtend (numberSize : Nat) (unsigned : Nat) : Int :=
  let max : Nat := (1 <<< ((numberSize * 8) % 64)) % U64M
  if unsigned ≥ max / 2 then
    wrapI64 (-(u64ToI64 ((max + U64M - unsigned) % U64M)))
  else u64ToI64 unsigned

/-- `PsbNumber::read_integer` in `src/types/number.rs`. -/
def readInteger (numberSize : Nat) (s : BStream) : PRes (Nat × Int × BStream) :=
  if numberSize = 0 then .ok (1, 0, s)
  else if numberSize ≤ 8 then
    (readUint numberSize s).bind fun rs1 =>
      .ok (rs1.1, signExtend numberSize rs1.2.1, rs1.2.2)
  else .err .invalidPSBValue

/-- `PsbNumber::get_n` in `src/types/number.rs`, under release semantics:
the initial `number = -number` wraps, so `get_n(i64::MIN)` evaluates with
`number` still equal to `i64::MIN` and returns 1.  In a debug build that
negation panics; see `getNChecked`. -/
def getN (number : Int) : Nat :=
  let n := if number < 0 then wrapI64 (-number) else number
  if n ≤ 0x7f then 1
  else if n ≤ 0x7fff then 2
  else if n ≤ 0x7fffff then 3
  else if n ≤ 0x7fffffff then 4
  else if n ≤ 0x7fffffffff then 5
  else if n ≤ 0x7fffffffffff then 6
  else if n ≤ 0x7fffffffffffff then 7
  else 8

/-- Overflow-checked (debug-build) behaviour of `get_n`: negating
`i64::MIN` panics, every other input returns as `getN`. -/
def getNChecked (number : Int) : Option Nat :=
  if number = -(I64MIN : Int) then none else some (getN number)

/-- `PsbNumber::get_uint_n` in `src/types/number.rs`. -/
def getUintN (number : Nat) : Nat :=
  if number ≤ 0xff then 1
  else if number ≤ 0xffff then 2
  else if number ≤ 0xffffff then 3
  else if number ≤ 0xffffffff then 4
  else if number ≤ 0xffffffffff then 5
  else if number ≤ 0xffffffffffff then 6
  else if number ≤ 0xffffffffffffff then 7
  else 8

/-- `PsbNumber::write_uint`: the first `n` little-endian bytes of the
value (no bytes when `n = 0`). -/
def writeUint (n : Nat) (number : Nat) : List Nat :=
  if n > 0 then leBytes n number else []

/-- `PsbNumber::write_integer`. -/
def writeInteger (n : Nat) (number : Int) : List Nat :=
  writeUint n (i64ToU64 number)

end PsbNumber

/-- True exactly when a 32-bit float bit pattern compares `== 0f32`
(IEEE-754: the two signed zeros and nothing else). -/
def f32IsZero (p : Nat) : Bool := p % 2147483648 = 0

/-- `PsbNumber` in `src/types/number.rs`.  Float and double payloads are
embedded as their IEEE-754 bit patterns. -/
inductive PsbNumber where
  | integer (i : Int)
  | double (bits : Nat)
  | float (bits : Nat)
  deriving DecidableEq, Repr

namespace PsbNumber

/-- `PsbNumber::from_bytes` in `src/types/number.rs` (dispatch on an
already-consumed type byte). -/
def fromBytes (numberType : Nat) (s : BStream) : PRes (Nat × PsbNumber × BStream) :=
  if numberType = 0x1f then
    (s.readExact 8).bind fun bs1 => .ok (8, .double (leToNat bs1.1), bs1.2)
  else if numberType = 0x1e then
    (s.readExact 4).bind fun bs1 => .ok (4, .float (leToNat bs1.1), bs1.2)
  else if numberType = 0x1d then
    .ok (0, .float 0, s)
  else if 4 ≤ numberType ∧ numberType ≤ 4 + 8 then
    (readInteger (numberType - 4) s).bind fun rs1 => .ok (rs1.1, .integer rs1.2.1, rs1.2.2)
  else .err .invalidPSBValue

/-- `PsbNumber::write_bytes` in `src/types/number.rs`: the payload bytes
(the value opcode is written by the caller, `PsbValue::write_bytes`).
An `Integer(0)` writes no payload at all. -/
def writeBytes : PsbNumber → List Nat
  | .integer v => if v = 0 then [] else writeInteger (getN v) v
  | .double bits => leBytes 8 bits
  | .float bits => if f32IsZero bits then [] else leBytes 4 bits

end PsbNumber

/-- Width of a signed value by magnitude, as specified in spec §4.1
("Signed: N=1 if |value| ≤ 0x7F, N=2 if ≤ 0x7FFF, …, N=8 otherwise").
Stated from the spec's words for comparison against `PsbNumber.getN`. -/
def specMagnitudeWidth (i : Int) : Nat :=
  if |i| ≤ 0x7f then 1
  else if |i| ≤ 0x7fff then 2
  else if |i| ≤ 0x7fffff then 3
  else if |i| ≤ 0x7fffffff then 4
  else if |i| ≤ 0x7fffffffff then 5
  else if |i| ≤ 0x7fffffffffff then 6
  else if |i| ≤ 0x7fffffffffffff then 7
  else 8

theorem wrapI64_of_range (i : Int) (h1 : -(I64MIN : Int) ≤ i) (h2 : i < I64MIN) :
    wrapI64 i = i := by
  unfold wrapI64
  have hU : (U64M : Int) = 2 ^ 64 := by norm_num [U64M]
  have hI : (I64MIN : Int) = 2 ^ 63 := by norm_num [I64MIN]
  have : (i + I64MIN) % U64M = i + I64MIN := by
    apply Int.emod_eq_of_lt <;> omega
  omega

/-- C3: the claim states that for every width N in 1..=8, `read_integer`
sign-extends the N-byte little-endian payload, so 8 zero bytes at N = 8
must decode to 0.  The source instead computes `1_u64 << 64`, which
overflows; under release (wrapping) semantics the embedded code returns
−1 for that payload (a debug build panics at the shift), contradicting the
claimed formula, whose value there is 0. -/
theorem readInteger_width8_zero_bug :
    PsbNumber.readInteger 8 ⟨[0, 0, 0, 0, 0, 0, 0, 0], 0⟩
        = .ok (8, (-1 : Int), ⟨[0, 0, 0, 0, 0, 0, 0, 0], 8⟩) ∧ ((-1 : Int) ≠ 0) :=
  ⟨by decide, by decide⟩

/-- C4 (counterexample): −0x80 fits in 1-byte two's complement
(−2^7 ≤ −0x80 ≤ 2^7 − 1), yet `get_n(-0x80)` returns 2, not the claimed
minimal two's-complement width 1. -/
theorem getN_neg_0x80 :
    PsbNumber.getN (-0x80) = 2 ∧
      (-(2 ^ 7) : Int) ≤ -0x80 ∧ (-0x80 : Int) ≤ 2 ^ 7 - 1 ∧ (2 : Nat) ≠ 1 :=
  ⟨by decide, by decide, by decide, by decide⟩

theorem getN_magnitude (i : Int) (h1 : -(I64MIN : Int) < i) (h2 : i < I64MIN) :
    PsbNumber.getN i = specMagnitudeWidth i := by
  unfold PsbNumber.getN specMagnitudeWidth
  by_cases hi : i < 0
  · simp only [hi, if_true]
    rw [wrapI64_of_range (-i) (by omega) (by omega), abs_of_neg hi]
  · simp only [hi, if_false]
    rw [abs_of_nonneg (by omega)]

/-- C4 (amended): for every `i64` other than `i64::MIN`, `get_n` returns
the smallest N in 1..=8 with |i| ≤ 2^(8N−1) − 1 (the magnitude ladder of
spec §4.1, `specMagnitudeWidth`) — so `Integer(-0x80)` is encoded with
width 2 — and at `i64::MIN` the wrapping negation leaves the value
negative, so release builds return width 1 while debug builds panic. -/
theorem getN_matches_magnitude_width :
    (∀ i : Int, -(I64MIN : Int) < i → i < I64MIN →
        PsbNumber.getN i = specMagnitudeWidth i) ∧
      PsbNumber.getN (-(I64MIN : Int)) = 1 ∧
      PsbNumber.getNChecked (-(I64MIN : Int)) = none :=
  ⟨getN_magnitude, by decide, by decide⟩

/-- C4 (witness): the amended statement instantiated at i = 300, where the
chosen width is 2. -/
theorem getN_matches_magnitude_width_witness :
    (-(I64MIN : Int) < 300 ∧ (300 : Int) < I64MIN) ∧
      PsbNumber.getN 300 = specMagnitudeWidth 300 :=
  ⟨⟨by decide, by decide⟩,
    getN_matches_magnitude_width.1 300 (by decide) (by decide)⟩

/-- Rust `String` values are embedded as their UTF-8 byte lists. -/
abbrev RStr := List Nat

/-- Lexicographic byte order on strings (Rust's `Ord` for `String`/`[u8]`). -/
def strLt : RStr → RStr → Bool
  | [], [] => false
  | [], _ :: _ => true
  | _ :: _, [] => false
  | a :: as, b :: bs => if a < b then true else if b < a then false else strLt as bs

/-- `PsbValue` in `src/types/mod.rs`.  `Object`'s `HashMap<String, PsbValue>`
is embedded canonically as an association list strictly sorted by key
(`strLt`); `HashMap::insert` is `mapInsert` below.  Float and double
payloads are IEEE-754 bit patterns. -/
inductive PsbValue where
  | none
  | null
  | bool (b : Bool)
  | number (n : PsbNumber)
  | intArray (xs : List Nat)
  | string (s : RStr)
  | stringRef (r : Nat)
  | list (xs : List PsbValue)
  | object (entries : List (RStr × PsbValue))
  | resource (r : Nat)
  | extraResource (r : Nat)
  | compilerNumber
  | compilerString
  | compilerResource
  | compilerDecimal
  | compilerArray
  | compilerBool
  | compilerBinaryTree

/-- Insertion into the canonical sorted-association-list representation of
`HashMap<String, PsbValue>`: replaces the value when the key is present. -/
def mapInsert (k : RStr) (v : PsbValue) : List (RStr × PsbValue) → List (RStr × PsbValue)
  | [] => [(k, v)]
  | (k0, v0) :: rest =>
    if strLt k k0 then (k, v) :: (k0, v0) :: rest
    else if k = k0 then (k, v) :: rest
    else (k0, v0) :: mapInsert k v rest

/-- The map built by the `map.insert(key, val)` calls of
`PsbObject::from_bytes`, one insertion per decoded entry in stream order. -/
def objOfEntries (es : List (RStr × PsbValue)) : List (RStr × PsbValue) :=
  es.foldl (fun m kv => mapInsert kv.1 kv.2 m) []

/-- `HashMap::get` on the canonical representation (`PsbObject::get_value`). -/
def objGet (m : List (RStr × PsbValue)) (k : RStr) : Option PsbValue :=
  (m.find? (fun kv => kv.1 == k)).map (·.2)

/-- The names/strings reference table (`PsbRefs` in the crate root).  Only
the two lists the value codec consults are embedded. -/
structure PsbRefs where
  names : List RStr
  strings : List RStr

/-- Modelled from the spec: `PsbRefs::find_name_index` is not among the
sources (the `lib.rs` present is an older iteration using `PsbRefTable`);
spec §4.8 step 5 says every object key is replaced by its index in the
sorted names table. -/
def PsbRefs.findNameIndex (t : PsbRefs) (s : RStr) : Option Nat :=
  t.names.findIdx? (· = s)

/-- Modelled from the spec: `PsbRefs::find_string_index`, the index of a
string value in the sorted strings table (spec §4.8 step 5). -/
def PsbRefs.findStringIndex (t : PsbRefs) (s : RStr) : Option Nat :=
  t.strings.findIdx? (· = s)

/-- `PsbRefTable::names().get(i)` / `get_string(i)`. -/
def PsbRefs.getName (t : PsbRefs) (i : Nat) : Option RStr := t.names.get? i

namespace PsbUintArray

/-- `PsbUintArray::get_n`: width of the element count. -/
def getN (xs : List Nat) : Nat := max (PsbNumber.getUintN xs.length) 1

/-- `PsbUintArray::get_item_n`: width of the largest element.  The source
unwraps `iter().max()`, which panics on an empty array; every source call
site is guarded by `len ≥ 1`, and this embedding is likewise only applied
to non-empty arrays (`max?.getD 0` is the guarded value). -/
def getItemN (xs : List Nat) : Nat := PsbNumber.getUintN (xs.max?.getD 0)

/-- `PsbUintArray::write_bytes`. -/
def writeBytes (xs : List Nat) : List Nat :=
  let countW := PsbNumber.writeUint (getN xs) xs.length
  if xs.length < 1 then countW ++ [0x0C + 1]
  else
    let n := getItemN xs
    countW ++ [n + 0x0C] ++ (xs.map (PsbNumber.writeUint n)).flatten

/-- Item-reading loop of `PsbUintArray::from_bytes`: `item_count` iterations
of `read_uint(item_byte_size)`, returning the claimed total item read count
and the items in order. -/
def readItems (itemByteSize : Nat) : Nat → BStream → PRes (Nat × List Nat × BStream)
  | 0, s => .ok (0, [], s)
  | k + 1, s =>
    (PsbNumber.readUint itemByteSize s).bind fun r =>
      (readItems itemByteSize k r.2.2).bind fun rest =>
        .ok (r.1 + rest.1, r.2.1 :: rest.2.1, rest.2.2)

/-- `PsbUintArray::from_bytes` (count width `n` taken from the opcode).
The item width byte is decoded with `u8` wrapping subtraction of
`PSB_TYPE_INTEGER_ARRAY_N` as in a release build. -/
def fromBytes (n : Nat) (s : BStream) : PRes (Nat × List Nat × BStream) :=
  (PsbNumber.readUint n s).bind fun r1 =>
    r1.2.2.readU8.bind fun b2 =>
      let itemByteSize := (b2.1 + 256 - 0x0C) % 256
      (readItems itemByteSize r1.2.1 b2.2).bind fun r3 =>
        .ok (r1.1 + r3.1 + 1, r3.2.1, r3.2.2)

end PsbUintArray

namespace PsbReference

/-- `PsbReference::get_n` (as in the identically-shaped `PsbStringRef`,
`PsbResourceRef`, `PsbExtraRef` of `src/types/reference.rs`). -/
def getN (r : Nat) : Nat := PsbNumber.getUintN r

/-- `PsbReference::from_bytes`. -/
def fromBytes (n : Nat) (s : BStream) : PRes (Nat × Nat × BStream) :=
  PsbNumber.readUint n s

/-- `PsbReference::write_bytes`. -/
def writeBytes (r : Nat) : List Nat := PsbNumber.writeUint (getN r) r

end PsbReference

namespace PsbValue

/-- `PsbValue::from_bytes_type` in `src/types/mod.rs`: dispatch on an
already-consumed opcode byte.  Match arms are embedded in source order.
Note there is no arm for `PSB_COMPILER_DECIMAL` (0x83). -/
def fromBytesType (t : Nat) (s : BStream) : PRes (Nat × PsbValue × BStream) :=
  if t = 0x00 then .ok (1, .none, s)
  else if t = 0x01 then .ok (1, .null, s)
  else if t = 0x02 then .ok (1, .bool false, s)
  else if t = 0x03 then .ok (1, .bool true, s)
  else if t = 0x1f ∨ t = 0x1d ∨ t = 0x1e then
    (PsbNumber.fromBytes t s).bind fun r => .ok (r.1 + 1, .number r.2.1, r.2.2)
  else if 0x14 < t ∧ t ≤ 0x14 + 4 then
    (PsbReference.fromBytes (t - 0x14) s).bind fun r => .ok (r.1 + 1, .stringRef r.2.1, r.2.2)
  else if 0x04 ≤ t ∧ t ≤ 0x04 + 8 then
    (PsbNumber.fromBytes t s).bind fun r => .ok (r.1 + 1, .number r.2.1, r.2.2)
  else if 0x0C < t ∧ t ≤ 0x0C + 8 then
    (PsbUintArray.fromBytes (t - 0x0C) s).bind fun r => .ok (r.1 + 1, .intArray r.2.1, r.2.2)
  else if 0x18 < t ∧ t ≤ 0x18 + 4 then
    (PsbReference.fromBytes (t - 0x18) s).bind fun r => .ok (r.1 + 1, .resource r.2.1, r.2.2)
  else if 0x21 < t ∧ t ≤ 0x21 + 4 then
    (PsbReference.fromBytes (t - 0x21) s).bind fun r => .ok (r.1 + 1, .extraResource r.2.1, r.2.2)
  else if t = 0x80 then .ok (1, .compilerNumber, s)
  else if t = 0x81 then .ok (1, .compilerString, s)
  else if t = 0x82 then .ok (1, .compilerResource, s)
  else if t = 0x84 then .ok (1, .compilerArray, s)
  else if t = 0x85 then .ok (1, .compilerBool, s)
  else if t = 0x86 then .ok (1, .compilerBinaryTree, s)
  else .err .invalidPSBValue

/-- `PsbValue::from_bytes` in `src/types/mod.rs` (no List/Object arms). -/
def fromBytes (s : BStream) : PRes (Nat × PsbValue × BStream) :=
  s.readU8.bind fun b => fromBytesType b.1 b.2

end PsbValue

/-- Child-decoding loop of `PsbList::from_bytes`: seek to `anchor + offset`,
decode one value with `dec`, and set `total_read = read + offset` whenever
the offset equals the maximum offset.  `dec` is the recursive
`PsbValue::from_bytes_refs` call. -/
def listChildren (dec : BStream → PRes (Nat × PsbValue × BStream)) (anchor maxOff : Nat)
    (offs : List Nat) (s : BStream) : PRes (Nat × List PsbValue × BStream) :=
  offs.foldlM
    (fun acc o =>
      (dec (acc.2.2.seekTo (anchor + o))).bind fun r =>
        .ok (if maxOff = o then r.1 + o else acc.1, acc.2.1 ++ [r.2.1], r.2.2))
    (0, [], s)

/-- Entry-decoding loop of `PsbObject::from_bytes` over
`name_refs.iter().zip(ref_offsets.iter())`: decode the child at
`anchor + offset`, look up the key `names[name_ref]` (missing →
`InvalidOffsetTable`), and record the entry; `total_read` is updated at the
maximum offset.  The source inserts each entry into the `HashMap` as it
goes; the embedding collects the entries in loop order and builds the same
map with `objOfEntries` (insertion per entry, in order). -/
def objectEntries (dec : BStream → PRes (Nat × PsbValue × BStream)) (names : List RStr)
    (anchor maxOff : Nat) (pairs : List (Nat × Nat)) (s : BStream) :
    PRes (Nat × List (RStr × PsbValue) × BStream) :=
  pairs.foldlM
    (fun acc p =>
      (dec (acc.2.2.seekTo (anchor + p.2))).bind fun r =>
        match names.get? p.1 with
        | Option.none => .err .invalidOffsetTable
        | Option.some key =>
          .ok (if maxOff = p.2 then r.1 + p.2 else acc.1, acc.2.1 ++ [(key, r.2.1)], r.2.2))
    (0, [], s)

namespace PsbValue

/-- `PsbValue::from_bytes_refs` in `src/types/mod.rs`, with
`PsbList::from_bytes` and `PsbObject::from_bytes` (from
`src/types/collection.rs`) inlined at the `0x20`/`0x21` opcodes.  `fuel`
bounds the recursion depth; `panicked` at fuel 0 is a model artifact never
reached when `fuel` exceeds the depth of the encoded tree.  The
`max().unwrap()` of the source on an empty offsets array is a real panic
(reachable when `name_refs` is non-empty but `ref_offsets` is empty). -/
def fromBytesRefs : Nat → PsbRefs → BStream → PRes (Nat × PsbValue × BStream)
  | 0, _, _ => .panicked
  | fuel + 1, table, s =>
    s.readU8.bind fun b =>
      if b.1 = 0x20 then
        (fromBytes b.2).bind fun r1 =>
          match r1.2.1 with
          | .intArray offs =>
            if offs.length < 1 then .ok (r1.1 + 1, .list [], r1.2.2)
            else
              match offs.max? with
              | Option.none => .panicked
              | Option.some maxOff =>
                let anchor := r1.2.2.pos
                (listChildren (fromBytesRefs fuel table) anchor maxOff offs r1.2.2).bind
                  fun r2 => .ok (r1.1 + r2.1 + 1, .list r2.2.1, r2.2.2.seekTo (anchor + r2.1))
          | _ => .err .invalidOffsetTable
      else if b.1 = 0x21 then
        (fromBytes b.2).bind fun r1 =>
          match r1.2.1 with
          | .intArray nameRefs =>
            (fromBytes r1.2.2).bind fun r2 =>
              match r2.2.1 with
              | .intArray offs =>
                if nameRefs.length < 1 then .ok (r1.1 + r2.1 + 1, .object [], r2.2.2)
                else
                  match offs.max? with
                  | Option.none => .panicked
                  | Option.some maxOff =>
                    let anchor := r2.2.2.pos
                    (objectEntries (fromBytesRefs fuel table) table.names anchor maxOff
                        (nameRefs.zip offs) r2.2.2).bind
                      fun r3 =>
                        .ok (r1.1 + r2.1 + r3.1 + 1, .object (objOfEntries r3.2.1),
                          r3.2.2.seekTo (anchor + r3.1))
              | _ => .err .invalidOffsetTable
          | _ => .err .invalidOffsetTable
      else fromBytesType b.1 b.2

end PsbValue

/-- Insert one string into a `strLt`-sorted list (helper for `sortStrs`). -/
def strInsert (x : RStr) : List RStr → List RStr
  | [] => [x]
  | y :: ys => if strLt x y then x :: y :: ys else y :: strInsert x ys

/-- Rust `Vec::<String>::sort()`: ascending lexicographic sort (insertion
sort; the source's sort is equivalent on the duplicate-free collected
lists). -/
def sortStrs : List RStr → List RStr
  | [] => []
  | x :: xs => strInsert x (sortStrs xs)

/-- Insert one entry into a list sorted by key (helper for `sortEntries`). -/
def entryInsert (e : RStr × PsbValue) : List (RStr × PsbValue) → List (RStr × PsbValue)
  | [] => [e]
  | f :: fs => if strLt e.1 f.1 then e :: f :: fs else f :: entryInsert e fs

/-- Key-sorted iteration order of `self.map.keys().into_iter().sorted()` in
`PsbObject::write_bytes`: the object's entries sorted by key. -/
def sortEntries : List (RStr × PsbValue) → List (RStr × PsbValue)
  | [] => []
  | e :: es => entryInsert e (sortEntries es)

theorem entryInsert_perm (e : RStr × PsbValue) (l : List (RStr × PsbValue)) :
    List.Perm (entryInsert e l) (e :: l) := by
  induction l with
  | nil => rfl
  | cons f fs ih =>
    unfold entryInsert
    by_cases h : strLt e.1 f.1
    · simp [h]
    · simp only [h, if_false]
      exact (List.Perm.cons f ih).trans (List.Perm.swap e f fs)

theorem sortEntries_perm (l : List (RStr × PsbValue)) : List.Perm (sortEntries l) l := by
  induction l with
  | nil => rfl
  | cons e es ih =>
    exact (entryInsert_perm e (sortEntries es)).trans (List.Perm.cons e ih)

theorem sizeOf_sortEntries (l : List (RStr × PsbValue)) :
    sizeOf (sortEntries l) = sizeOf l :=
  (sortEntries_perm l).sizeOf_eq_sizeOf

namespace PsbValue

/-- `PsbValue::write_bytes` in `src/types/mod.rs`: opcode plus payload for
the reference-free variants; `String`, `List` and `Object` values fall to
the catch-all `InvalidPSBValue` arm.  Note for `Integer(0)` the opcode is
`0x04 + get_n(0) = 0x05` while `PsbNumber::write_bytes` writes no payload. -/
def writeBytes : PsbValue → PRes (List Nat)
  | .none => .ok [0x00]
  | .null => .ok [0x01]
  | .bool b => .ok (if b then [0x03] else [0x02])
  | .number n =>
    let opcode :=
      match n with
      | .integer v => 0x04 + PsbNumber.getN v
      | .double _ => 0x1f
      | .float f => if f32IsZero f then 0x1d else 0x1e
    .ok (opcode :: n.writeBytes)
  | .intArray xs => .ok ((0x0C + PsbUintArray.getN xs) :: PsbUintArray.writeBytes xs)
  | .stringRef r => .ok ((0x14 + PsbReference.getN r) :: PsbReference.writeBytes r)
  | .resource r => .ok ((0x18 + PsbReference.getN r) :: PsbReference.writeBytes r)
  | .extraResource r => .ok ((0x21 + PsbReference.getN r) :: PsbReference.writeBytes r)
  | .compilerNumber => .ok [0x80]
  | .compilerString => .ok [0x81]
  | .compilerResource => .ok [0x82]
  | .compilerDecimal => .ok [0x83]
  | .compilerArray => .ok [0x84]
  | .compilerBool => .ok [0x85]
  | .compilerBinaryTree => .ok [0x86]
  | .string _ => .err .invalidPSBValue
  | .list _ => .err .invalidPSBValue
  | .object _ => .err .invalidPSBValue

/-- `PsbString::write_bytes` in `src/types/string.rs`: resolve the string
to its table index and write the reference payload. -/
def stringWriteBytes (table : PsbRefs) (str : RStr) : PRes (List Nat) :=
  match table.findStringIndex str with
  | Option.some idx => .ok (PsbReference.writeBytes idx)
  | Option.none => .err .invalidOffsetTable

mutual

/-- `PsbValue::write_bytes_refs` in `src/types/mod.rs`.  String values are
written as string references against the table; lists and objects write
their offset arrays followed by the concatenated child payloads; all other
variants delegate to `write_bytes`. -/
def writeBytesRefs (table : PsbRefs) (v : PsbValue) : PRes (List Nat) :=
  match v with
  | .string str =>
    (match table.findStringIndex str with
      | Option.some idx => (.ok idx : PRes Nat)
      | Option.none => .err .invalidOffsetTable).bind fun idx =>
      (stringWriteBytes table str).bind fun payload =>
        .ok ((0x14 + max (PsbNumber.getUintN idx) 1) :: payload)
  | .list xs =>
    (writeChildren table 0 xs).bind fun ob =>
      .ok (0x20 :: ((0x0C + PsbUintArray.getN ob.1) :: PsbUintArray.writeBytes ob.1) ++ ob.2)
  | .object es =>
    (writeObjectChildren table 0 (sortEntries es)).bind fun r =>
      .ok (0x21 :: ((0x0C + PsbUintArray.getN r.1) :: PsbUintArray.writeBytes r.1)
        ++ ((0x0C + PsbUintArray.getN r.2.1) :: PsbUintArray.writeBytes r.2.1) ++ r.2.2)
  | v => writeBytes v
termination_by sizeOf v
decreasing_by
  all_goals simp_wf
  rw [sizeOf_sortEntries]
  omega

/-- Child loop of `PsbList::write_bytes`: push the running buffer size as
the child's offset (reduced mod 2^64, modelling the `i64`/`u64` casts under
wrapping semantics), then append the child's bytes. -/
def writeChildren (table : PsbRefs) (acc : Nat) (vs : List PsbValue) :
    PRes (List Nat × List Nat) :=
  match vs with
  | [] => .ok ([], [])
  | v :: rest =>
    (writeBytesRefs table v).bind fun bv =>
      (writeChildren table (acc + bv.length) rest).bind fun ob =>
        .ok ((acc % U64M) :: ob.1, bv ++ ob.2)
termination_by sizeOf vs
decreasing_by all_goals simp_wf <;> omega

/-- Child loop of `PsbObject::write_bytes` over the key-sorted entries:
resolve the key's name index (missing → `InvalidOffsetTable`), push the
name ref and the running offset, then append the child's bytes.  The
source's `ref_cache` memoisation of `find_name_index` is semantically
transparent and not embedded. -/
def writeObjectChildren (table : PsbRefs) (acc : Nat) (es : List (RStr × PsbValue)) :
    PRes (List Nat × List Nat × List Nat) :=
  match es with
  | [] => .ok ([], [], [])
  | (k, cv) :: rest =>
    (match table.findNameIndex k with
      | Option.some idx => (.ok idx : PRes Nat)
      | Option.none => .err .invalidOffsetTable).bind fun idx =>
      (writeBytesRefs table cv).bind fun bv =>
        (writeObjectChildren table (acc + bv.length) rest).bind fun r =>
          .ok (idx :: r.1, (acc % U64M) :: r.2.1, bv ++ r.2.2)
termination_by sizeOf es
decreasing_by all_goals simp_wf <;> omega

end

end PsbValue

mutual

/-- Dispatch of `collect_names` (`src/types/collection.rs`): objects and
lists are walked recursively, every other child contributes nothing. -/
def collectNamesV (v : PsbValue) (acc : List RStr) : List RStr :=
  match v with
  | .object es => collectNamesObj es acc
  | .list xs => collectNamesList xs acc
  | _ => acc

/-- `PsbObject::collect_names`: recurse into each child, then push the key
if not already present.  The source iterates the `HashMap` in its arbitrary
order; the embedding iterates the canonical order (the collected list is
sorted afterwards by the writer, so the claims do not depend on it). -/
def collectNamesObj (es : List (RStr × PsbValue)) (acc : List RStr) : List RStr :=
  match es with
  | [] => acc
  | (k, cv) :: rest =>
    let acc1 := collectNamesV cv acc
    let acc2 := if acc1.contains k then acc1 else acc1 ++ [k]
    collectNamesObj rest acc2

/-- `PsbList::collect_names`. -/
def collectNamesList (xs : List PsbValue) (acc : List RStr) : List RStr :=
  match xs with
  | [] => acc
  | v :: rest => collectNamesList rest (collectNamesV v acc)

end

mutual

/-- Dispatch of `collect_strings` (`src/types/collection.rs`): string
children are pushed when unseen, objects and lists are walked recursively. -/
def collectStringsV (v : PsbValue) (acc : List RStr) : List RStr :=
  match v with
  | .object es => collectStringsObj es acc
  | .list xs => collectStringsList xs acc
  | .string s => if acc.contains s then acc else acc ++ [s]
  | _ => acc

/-- `PsbObject::collect_strings`. -/
def collectStringsObj (es : List (RStr × PsbValue)) (acc : List RStr) : List RStr :=
  match es with
  | [] => acc
  | (_, cv) :: rest => collectStringsObj rest (collectStringsV cv acc)

/-- `PsbList::collect_strings`. -/
def collectStringsList (xs : List PsbValue) (acc : List RStr) : List RStr :=
  match xs with
  | [] => acc
  | v :: rest => collectStringsList rest (collectStringsV v acc)

end

/-- Reference-table gathering of `PsbWriter::finish` (steps at
`src/writer.rs` lines 70–81): collect the names and string values reachable
from the value and sort both lists. -/
def gatherRefsV (v : PsbValue) : PsbRefs :=
  { names := sortStrs (collectNamesV v []),
    strings := sortStrs (collectStringsV v []) }

/-- Error type of the spec-modelled `load`, carrying the `InvalidPsbRoot`
kind the spec names (§4.7/§7); the `PsbErrorKind` of the older `lib.rs`
present in the sources has no such variant. -/
inductive LoadErr where
  | invalidPsbRoot
  | psb (e : PsbErr)
  deriving DecidableEq, Repr

/-- `PsbFile::read_root` in `src/lib.rs` (seek to `entry_point`, decode one
value).  That older iteration calls `PsbValue::from_bytes`, which cannot
decode `0x20`/`0x21`; the current reader resolves the root against the
reference tables, so the embedding decodes with `from_bytes_refs` as the
spec's read data flow (§2) describes. -/
def readRoot (fuel : Nat) (table : PsbRefs) (s : BStream) (entryPoint : Nat) :
    PRes (Nat × PsbValue × BStream) :=
  PsbValue.fromBytesRefs fuel table (s.seekTo entryPoint)

/-- Modelled from the spec: `load()` of §4.7 ("Reads root Value from
`entry_point`. Fails `InvalidPsbRoot` if the root is not an Object.") is
not among the sources — the `lib.rs` present is an older iteration whose
`read_root` returns the value unchecked.  The modelled `load` returns the
root object's entries or `InvalidPsbRoot`. -/
def load (fuel : Nat) (table : PsbRefs) (s : BStream) (entryPoint : Nat) :
    RRes LoadErr (List (RStr × PsbValue)) :=
  match readRoot fuel table s entryPoint with
  | .ok (_, .object es, _) => .ok es
  | .ok _ => .err .invalidPsbRoot
  | .err e => .err (.psb e)
  | .panicked => .panicked

/-- Resource-loading step of `ScnReader::open_scn` (`src/reader.rs` lines
176–231): the guard returns `InvalidOffsetTable` when the offsets array is
shorter than the lengths array; the following loop runs over the offsets
indices and indexes `resource_lengths[i]`, which panics when the lengths
array is the shorter one.  `base` is `start + resource_data_pos`; each blob
is `take`n from the data as `stream.take(len).read_to_end` slices it. -/
def loadResources (resourceOffsets resourceLengths data : List Nat) (base : Nat) :
    RRes PsbErr (List (List Nat)) :=
  if resourceOffsets.length < resourceLengths.length then .err .invalidOffsetTable
  else
    (List.range resourceOffsets.length).foldlM
      (fun acc i =>
        match resourceOffsets.get? i, resourceLengths.get? i with
        | Option.some off, Option.some len =>
          .ok (acc ++ [(data.drop (base + off)).take len])
        | _, _ => (.panicked : RRes PsbErr (List (List Nat))))
      []

/-- Adler-32 running state of the `adler` crate (`a` starts at 1, `b` at 0). -/
structure AdlerState where
  a : Nat
  b : Nat
  deriving DecidableEq, Repr

/-- `Adler32::write_slice`: per byte, `a = (a + byte) mod 65521` then
`b = (b + a) mod 65521`. -/
def adlerUpdate (st : AdlerState) (bytes : List Nat) : AdlerState :=
  bytes.foldl (fun st byte => ⟨(st.a + byte) % 65521, (st.b + (st.a + byte) % 65521) % 65521⟩) st

/-- `Adler32::checksum`: `(b << 16) | a`. -/
def AdlerState.checksum (st : AdlerState) : Nat := st.b * 65536 + st.a

/-- Adler-32 of a byte sequence. -/
def adler32 (bytes : List Nat) : Nat := (adlerUpdate ⟨1, 0⟩ bytes).checksum

/-- Four little-endian bytes of a `u32` (`to_le_bytes`). -/
def le4 (x : Nat) : List Nat := leBytes 4 x

/-- `PsbStringOffset` in `src/offsets.rs`. -/
structure PsbStringOffset where
  offsetPos : Nat
  dataPos : Nat
  deriving DecidableEq, Repr

/-- `PsbResourcesOffset` in `src/offsets.rs`. -/
structure PsbResourcesOffset where
  offsetPos : Nat
  lengthsPos : Nat
  dataPos : Nat
  deriving DecidableEq, Repr

/-- `PsbOffsets` in `src/offsets.rs`. -/
structure PsbOffsets where
  nameOffset : Nat
  strings : PsbStringOffset
  resources : PsbResourcesOffset
  entryPoint : Nat
  checksum : Option Nat
  extra : Option PsbResourcesOffset
  deriving DecidableEq, Repr

/-- `PsbOffsets::write_bytes` in `src/offsets.rs`: seven `u32` words, then
for version > 2 the checksum word (`unwrap_or(0)`), then for version > 3
the extra-resources words (`InvalidOffsetTable` when absent). -/
def PsbOffsets.writeBytes (off : PsbOffsets) (version : Nat) : PRes (List Nat) :=
  let base := le4 off.nameOffset ++ le4 off.strings.offsetPos ++ le4 off.strings.dataPos
    ++ le4 off.resources.offsetPos ++ le4 off.resources.lengthsPos ++ le4 off.resources.dataPos
    ++ le4 off.entryPoint
  if version > 2 then
    let cs := le4 (off.checksum.getD 0)
    if version > 3 then
      match off.extra with
      | Option.none => .err .invalidOffsetTable
      | Option.some ex =>
        .ok (base ++ cs ++ le4 ex.offsetPos ++ le4 ex.lengthsPos ++ le4 ex.dataPos)
    else .ok (base ++ cs)
  else .ok base

/-- Checksum computation of `PsbWriter::finish` (`src/writer.rs` lines
120–133): eight `write_slice` calls over the little-endian words
`offset_start_pos, name_offset, strings.offset_pos, strings.data_pos,
resources.offset_pos, resources.lengths_pos, resources.data_pos,
entry_point`, in that order. -/
def finishChecksum (offsetStartPos : Nat) (off : PsbOffsets) : Nat :=
  (adlerUpdate (adlerUpdate (adlerUpdate (adlerUpdate (adlerUpdate (adlerUpdate (adlerUpdate
    (adlerUpdate ⟨1, 0⟩
      (le4 offsetStartPos)) (le4 off.nameOffset)) (le4 off.strings.offsetPos))
      (le4 off.strings.dataPos)) (le4 off.resources.offsetPos)) (le4 off.resources.lengthsPos))
      (le4 off.resources.dataPos)) (le4 off.entryPoint)).checksum

theorem objGet_mapInsert (k : RStr) (v : PsbValue) (m : List (RStr × PsbValue)) (q : RStr) :
    objGet (mapInsert k v m) q = if q = k then Option.some v else objGet m q := by
  induction m with
  | nil =>
    by_cases h : q = k
    · simp [objGet, mapInsert, List.find?, h]
    · simp only [objGet, mapInsert, List.find?]
      have : (k == q) = false := by
        simp only [beq_eq_false_iff_ne, ne_eq]
        exact fun hk => h hk.symm
      simp [this, h]
  | cons e rest ih =>
    obtain ⟨k0, v0⟩ := e
    simp only [mapInsert]
    by_cases hlt : strLt k k0
    · simp only [hlt, if_true]
      by_cases h : q = k
      · simp [objGet, List.find?, h]
      · have : (k == q) = false := by
          simp only [beq_eq_false_iff_ne, ne_eq]; exact fun hk => h hk.symm
        simp [objGet, List.find?, this, h]
    · simp only [hlt, if_false]
      by_cases hk : k = k0
      · simp only [hk, if_pos rfl]
        by_cases h : q = k0
        · simp [objGet, List.find?, h, hk ▸ h]
        · have h1 : (k0 == q) = false := by
            simp only [beq_eq_false_iff_ne, ne_eq]; exact fun e => h e.symm
          simp [objGet, List.find?, h1, h, hk]
      · simp only [if_neg hk]
        by_cases h : q = k0
        · have h1 : (k0 == q) = true := by simp [h]
          have h2 : q ≠ k := fun e => hk (e.symm.trans h)
          simp [objGet, List.find?, h1, h2]
        · have h1 : (k0 == q) = false := by
            simp only [beq_eq_false_iff_ne, ne_eq]; exact fun e => h e.symm
          simp only [objGet, List.find?, h1] at ih ⊢
          exact ih

theorem objGet_foldl (es : List (RStr × PsbValue)) (m : List (RStr × PsbValue)) (q : RStr) :
    objGet (es.foldl (fun m kv => mapInsert kv.1 kv.2 m) m) q
      = ((es.reverse.find? (fun kv => kv.1 == q)).map (·.2)).or (objGet m q) := by
  induction es generalizing m with
  | nil => simp [List.find?]
  | cons e rest ih =>
    simp only [List.foldl_cons, ih, List.reverse_cons, List.find?_append]
    by_cases hr : (rest.reverse.find? (fun kv => kv.1 == q)).isSome
    · obtain ⟨kv, hkv⟩ := Option.isSome_iff_exists.mp hr
      simp [hkv, Option.or]
    · rw [Option.not_isSome_iff_eq_none] at hr
      simp only [hr, Option.map_none', Option.none_or]
      rw [objGet_mapInsert]
      by_cases h : q = e.1
      · have h1 : (e.1 == q) = true := by simp [h]
        simp [List.find?, h1, h, Option.or]
      · have h1 : (e.1 == q) = false := by
          simp only [beq_eq_false_iff_ne, ne_eq]; exact fun hk => h hk.symm
        simp [List.find?, h1, h]

/-- C10: when the decoded name-refs array repeats a name index, decoding
succeeds and the repeated key maps to the value at the position-wise last
occurrence.  First conjunct: the map built by `PsbObject::from_bytes`'s
per-entry `insert` calls resolves every key to the last entry carrying it.
Second conjunct: a concrete object stream with `name_refs = [0, 0]`
(children `Null` then `Bool(true)`) decodes without error to a singleton
object holding the second child. -/
theorem objectFromBytes_duplicate_names :
    (∀ (es : List (RStr × PsbValue)) (q : RStr),
        objGet (objOfEntries es) q = (es.reverse.find? (fun kv => kv.1 == q)).map (·.2)) ∧
      PsbValue.fromBytesRefs 5 ⟨[[97]], []⟩
          ⟨[0x21, 0x0D, 2, 0x0D, 0, 0, 0x0D, 2, 0x0D, 0, 1, 0x01, 0x03], 0⟩
        = .ok (13, .object [([97], .bool true)],
            ⟨[0x21, 0x0D, 2, 0x0D, 0, 0, 0x0D, 2, 0x0D, 0, 1, 0x01, 0x03], 13⟩) := by
  constructor
  · intro es q
    have h := objGet_foldl es [] q
    simpa [objGet, List.find?] using h
  · rfl

/-- C2: `Integer(0)` does NOT encode to `[0x04]`: `PsbValue::write_bytes`
emits opcode `0x04 + get_n(0) = 0x05` while `PsbNumber::write_bytes`
writes no payload for 0, so the output is the single byte `0x05` whose
opcode promises a one-byte payload.  Decoding the single byte `0x04` does
return `Integer(0)` as claimed (with a claimed read count of 2). -/
theorem writeInteger0_bug :
    PsbValue.writeBytes (.number (.integer 0)) = .ok [0x05] ∧
      PsbValue.fromBytes ⟨[0x04], 0⟩ = .ok (2, .number (.integer 0), ⟨[0x04], 1⟩) ∧
      [0x05] ≠ [0x04] :=
  ⟨rfl, rfl, by decide⟩

/-- C5: each compiler-tombstone opcode decodes to its variant consuming
exactly the opcode byte — except 0x83: `from_bytes_type` has no
`PSB_COMPILER_DECIMAL` arm, so the byte 0x83 that `write_bytes` emits for
`CompilerDecimal` decodes to `InvalidPSBValue` instead of the claimed
`CompilerDecimal` variant. -/
theorem tombstone_opcodes :
    PsbValue.fromBytes ⟨[0x80], 0⟩ = .ok (1, .compilerNumber, ⟨[0x80], 1⟩) ∧
      PsbValue.fromBytes ⟨[0x81], 0⟩ = .ok (1, .compilerString, ⟨[0x81], 1⟩) ∧
      PsbValue.fromBytes ⟨[0x82], 0⟩ = .ok (1, .compilerResource, ⟨[0x82], 1⟩) ∧
      PsbValue.fromBytes ⟨[0x83], 0⟩ = .err .invalidPSBValue ∧
      PsbValue.fromBytes ⟨[0x84], 0⟩ = .ok (1, .compilerArray, ⟨[0x84], 1⟩) ∧
      PsbValue.fromBytes ⟨[0x85], 0⟩ = .ok (1, .compilerBool, ⟨[0x85], 1⟩) ∧
      PsbValue.fromBytes ⟨[0x86], 0⟩ = .ok (1, .compilerBinaryTree, ⟨[0x86], 1⟩) ∧
      PsbValue.writeBytes .compilerDecimal = .ok [0x83] :=
  ⟨rfl, rfl, rfl, rfl, rfl, rfl, rfl, rfl⟩

/-- C6: the spec-modelled `load` fails with `InvalidPsbRoot` whenever the
value decoded at the entry point is not an Object, and only ever returns
an Object root. -/
theorem load_rejects_non_object_root :
    (∀ fuel table s entry n v s1, readRoot fuel table s entry = .ok (n, v, s1) →
        (∀ es, v ≠ PsbValue.object es) →
        load fuel table s entry = .err .invalidPsbRoot) ∧
      ∀ fuel table s entry es, load fuel table s entry = .ok es →
        ∃ n s1, readRoot fuel table s entry = .ok (n, PsbValue.object es, s1) := by
  constructor
  · intro fuel table s entry n v s1 hr hv
    unfold load
    rw [hr]
    cases v with
    | object es => exact absurd rfl (hv es)
    | _ => rfl
  · intro fuel table s entry es hl
    unfold load at hl
    cases hrr : readRoot fuel table s entry with
    | ok r =>
      rw [hrr] at hl
      obtain ⟨n, v, s1⟩ := r
      cases v with
      | object es0 =>
        injection hl with h
        subst h
        exact ⟨n, s1, rfl⟩
      | _ => cases hl
    | err e => rw [hrr] at hl; cases hl
    | panicked => rw [hrr] at hl; cases hl

/-- C6 (witness): a stream whose entry-point value is `Null` makes `load`
fail with `InvalidPsbRoot`. -/
theorem load_rejects_non_object_root_witness :
    load 1 ⟨[], []⟩ ⟨[0x01], 0⟩ 0 = .err .invalidPsbRoot :=
  load_rejects_non_object_root.1 1 ⟨[], []⟩ ⟨[0x01], 0⟩ 0 1 .null ⟨[0x01], 1⟩ rfl
    (fun es h => by cases h)

/-- C7: with a lengths array shorter than the offsets array the resource
loop of `open_scn` panics (out-of-bounds index into `resource_lengths`)
instead of returning the claimed `InvalidOffsetTable`: the guard tests the
reversed comparison `resource_offsets.len() < resource_lengths.len()`,
which instead errors in the opposite (harmless) situation. -/
theorem loadResources_short_lengths_panics :
    loadResources [0] [] [] 0 = .panicked ∧
      (RRes.panicked ≠ (.err .invalidOffsetTable : RRes PsbErr (List (List Nat)))) ∧
      loadResources [] [0] [] 0 = .err .invalidOffsetTable :=
  ⟨rfl, by decide, rfl⟩

theorem adlerUpdate_append (st : AdlerState) (xs ys : List Nat) :
    adlerUpdate (adlerUpdate st xs) ys = adlerUpdate st (xs ++ ys) :=
  (List.foldl_append ..).symm

theorem finishChecksum_eq_adler32 (sp : Nat) (off : PsbOffsets) :
    finishChecksum sp off
      = adler32 (le4 sp ++ le4 off.nameOffset ++ le4 off.strings.offsetPos
        ++ le4 off.strings.dataPos ++ le4 off.resources.offsetPos
        ++ le4 off.resources.lengthsPos ++ le4 off.resources.dataPos
        ++ le4 off.entryPoint) := by
  unfold finishChecksum adler32
  simp only [adlerUpdate_append, List.append_assoc]

theorem take4_drop28 (b c r : List Nat) (hb : b.length = 28) (hc : c.length = 4) :
    ((b ++ (c ++ r)).drop 28).take 4 = c := by
  rw [← hb, List.drop_left, ← hc, List.take_left]

/-- C9: for version > 2, the offset block written by `finish` — whose
checksum field `finish` has set to `finishChecksum` of the block's own
offsets — carries at byte offset 28 (right after the seven offset words)
the adler-32 of the eight little-endian words `offset_block_start,
name_offset, strings.offset_pos, strings.data_pos, resources.offset_pos,
resources.lengths_pos, resources.data_pos, entry_point`, in that order. -/
theorem offset_block_checksum_is_adler32 (version : Nat) (off : PsbOffsets) (sp : Nat)
    (hv : 2 < version) (hchk : off.checksum = Option.some (finishChecksum sp off))
    (bs : List Nat) (hw : PsbOffsets.writeBytes off version = .ok bs) :
    (bs.drop 28).take 4
      = le4 (adler32 (le4 sp ++ le4 off.nameOffset ++ le4 off.strings.offsetPos
        ++ le4 off.strings.dataPos ++ le4 off.resources.offsetPos
        ++ le4 off.resources.lengthsPos ++ le4 off.resources.dataPos
        ++ le4 off.entryPoint)) := by
  unfold PsbOffsets.writeBytes at hw
  rw [if_pos hv, hchk, Option.getD_some] at hw
  rw [← finishChecksum_eq_adler32 sp off]
  have hblen : (le4 off.nameOffset ++ le4 off.strings.offsetPos ++ le4 off.strings.dataPos
      ++ le4 off.resources.offsetPos ++ le4 off.resources.lengthsPos
      ++ le4 off.resources.dataPos ++ le4 off.entryPoint).length = 28 := by
    simp [le4]
  have hcslen : (le4 (finishChecksum sp off)).length = 4 := by simp [le4]
  by_cases h3 : version > 3
  · rw [if_pos h3] at hw
    cases hex : off.extra with
    | none => rw [hex] at hw; cases hw
    | some ex =>
      rw [hex] at hw
      injection hw with hbs
      subst hbs
      simp only [List.append_assoc]
      simp only [List.append_assoc] at hblen
      exact take4_drop28 _ _ _ hblen hcslen
  · rw [if_neg h3] at hw
    injection hw with hbs
    subst hbs
    have : (le4 off.nameOffset ++ le4 off.strings.offsetPos ++ le4 off.strings.dataPos
        ++ le4 off.resources.offsetPos ++ le4 off.resources.lengthsPos
        ++ le4 off.resources.dataPos ++ le4 off.entryPoint)
        ++ le4 (finishChecksum sp off)
        = (le4 off.nameOffset ++ le4 off.strings.offsetPos ++ le4 off.strings.dataPos
        ++ le4 off.resources.offsetPos ++ le4 off.resources.lengthsPos
        ++ le4 off.resources.dataPos ++ le4 off.entryPoint)
        ++ (le4 (finishChecksum sp off) ++ []) := by rw [List.append_nil]
    rw [this]
    simp only [List.append_assoc]
    simp only [List.append_assoc] at hblen
    exact take4_drop28 _ _ _ hblen hcslen

/-- C9 (witness): the statement at version 3 with all-zero offsets and
block start 12. -/
theorem offset_block_checksum_is_adler32_witness :
    ((le4 0 ++ le4 0 ++ le4 0 ++ le4 0 ++ le4 0 ++ le4 0 ++ le4 0
        ++ le4 (finishChecksum 12 (PsbOffsets.mk 0 ⟨0, 0⟩ ⟨0, 0, 0⟩ 0
          (Option.some (finishChecksum 12 (PsbOffsets.mk 0 ⟨0, 0⟩ ⟨0, 0, 0⟩ 0 Option.none
            Option.none))) Option.none))).drop 28).take 4
      = le4 (adler32 (le4 12 ++ le4 0 ++ le4 0 ++ le4 0 ++ le4 0 ++ le4 0 ++ le4 0 ++ le4 0)) :=
  offset_block_checksum_is_adler32 3
    (PsbOffsets.mk 0 ⟨0, 0⟩ ⟨0, 0, 0⟩ 0
      (Option.some (finishChecksum 12 (PsbOffsets.mk 0 ⟨0, 0⟩ ⟨0, 0, 0⟩ 0 Option.none
        Option.none))) Option.none)
    12 (by decide) rfl _ rfl

theorem drop_cons_readU8 {D : List Nat} {p b : Nat} {rest : List Nat}
    (h : D.drop p = b :: rest) :
    BStream.readU8 ⟨D, p⟩ = .ok (b, ⟨D, p + 1⟩) := by
  unfold BStream.readU8
  have h0 : (D.drop p)[0]? = Option.some b := by rw [h]; simp
  rw [List.getElem?_drop, Nat.add_zero] at h0
  rw [List.get?_eq_getElem?, h0]

theorem drop_cons_succ {D : List Nat} {p b : Nat} {rest : List Nat}
    (h : D.drop p = b :: rest) : D.drop (p + 1) = rest := by
  have : D.drop (p + 1) = (D.drop p).drop 1 := by rw [List.drop_drop]
  rw [this, h]
  rfl

theorem drop_append_past {D : List Nat} {p : Nat} {bytes tail : List Nat}
    (h : D.drop p = bytes ++ tail) : D.drop (p + bytes.length) = tail := by
  have : D.drop (p + bytes.length) = (D.drop p).drop bytes.length := by
    rw [List.drop_drop, Nat.add_comm]
  rw [this, h, List.drop_left]

theorem readExact_of_drop {D : List Nat} {p n : Nat} {bytes tail : List Nat}
    (h : D.drop p = bytes ++ tail) (hlen : bytes.length = n) (hn : 1 ≤ n) :
    BStream.readExact ⟨D, p⟩ n = .ok (bytes, ⟨D, p + n⟩) := by
  unfold BStream.readExact
  have hdl : (D.drop p).length = D.length - p := List.length_drop ..
  have h1 : (D.drop p).length = n + tail.length := by rw [h]; simp [hlen]
  have hcond : p + n ≤ D.length := by omega
  rw [if_pos hcond]
  have htake : (D.drop p).take n = bytes := by
    rw [h, ← hlen, List.take_left]
  rw [htake]

theorem readUint_rt (n x : Nat) (hn1 : 1 ≤ n) (hn8 : n ≤ 8) (hx : x < 256 ^ n)
    {D : List Nat} {p : Nat} {tail : List Nat} (h : D.drop p = leBytes n x ++ tail) :
    PsbNumber.readUint n ⟨D, p⟩ = .ok (n, x, ⟨D, p + n⟩) := by
  unfold PsbNumber.readUint
  rw [if_neg (by omega), if_pos hn8,
    readExact_of_drop h (leBytes_length n x) hn1, RRes.bind_ok]
  simp only [leToNat_leBytes, Nat.mod_eq_of_lt hx]

theorem leBytes_mod (n x : Nat) : leBytes n (x % 256 ^ n) = leBytes n x := by
  induction n generalizing x with
  | zero => rfl
  | succ n ih =>
    unfold leBytes
    have h1 : x % 256 ^ (n + 1) % 256 = x % 256 := by
      rw [Nat.mod_mod_of_dvd]
      exact dvd_pow_self 256 (Nat.succ_ne_zero n)
    have h2 : x % 256 ^ (n + 1) / 256 = x / 256 % 256 ^ n := by
      rw [pow_succ, Nat.mul_comm, Nat.mod_mul_right_div_self]
    rw [h1, h2, ih]

theorem signExtend_inv (n : Nat) (v : Int) (hn1 : 1 ≤ n) (hn7 : n ≤ 7)
    (hvlo : -(2 ^ (8 * n - 1) : Int) ≤ v) (hvhi : v ≤ 2 ^ (8 * n - 1) - 1) :
    PsbNumber.signExtend n (i64ToU64 v % 256 ^ n) = v := by
  unfold PsbNumber.signExtend i64ToU64 u64ToI64 wrapI64 U64M I64MIN
  interval_cases n <;>
    · norm_num [Nat.shiftLeft_eq]
      split_ifs <;> omega

theorem getN_bounds7 (v : Int) (hlo : -(36028797018963968 : Int) < v)
    (hhi : v < 36028797018963968) :
    1 ≤ PsbNumber.getN v ∧ PsbNumber.getN v ≤ 7 ∧
      -(2 ^ (8 * PsbNumber.getN v - 1) : Int) ≤ v ∧
      v ≤ 2 ^ (8 * PsbNumber.getN v - 1) - 1 := by
  have hI : (I64MIN : Int) = 9223372036854775808 := by norm_num [I64MIN]
  by_cases hv : v < 0
  · have hwr : wrapI64 (-v) = -v := wrapI64_of_range (-v) (by omega) (by omega)
    unfold PsbNumber.getN
    simp only [hv, if_true, hwr]
    split_ifs <;> refine ⟨by omega, by omega, by omega, by omega⟩
  · unfold PsbNumber.getN
    simp only [hv, if_false]
    split_ifs <;> refine ⟨by omega, by omega, by omega, by omega⟩

theorem readInteger_rt (v : Int) (hlo : -(36028797018963968 : Int) < v)
    (hhi : v < 36028797018963968) {D : List Nat} {p : Nat} {tail : List Nat}
    (h : D.drop p = leBytes (PsbNumber.getN v) (i64ToU64 v) ++ tail) :
    PsbNumber.readInteger (PsbNumber.getN v) ⟨D, p⟩
      = .ok (PsbNumber.getN v, v, ⟨D, p + PsbNumber.getN v⟩) := by
  obtain ⟨hn1, hn7, hvlo, hvhi⟩ := getN_bounds7 v hlo hhi
  unfold PsbNumber.readInteger
  rw [if_neg (by omega), if_pos (by omega)]
  have hmodlt : i64ToU64 v % 256 ^ PsbNumber.getN v < 256 ^ PsbNumber.getN v :=
    Nat.mod_lt _ (by positivity)
  have h' : D.drop p
      = leBytes (PsbNumber.getN v) (i64ToU64 v % 256 ^ PsbNumber.getN v) ++ tail := by
    rw [leBytes_mod]; exact h
  rw [readUint_rt _ _ hn1 (by omega) hmodlt h']
  simp only [RRes.bind_ok]
  rw [signExtend_inv _ _ hn1 hn7 hvlo hvhi]

/-- Decoding specification: from any stream whose suffix at `p` starts with
`enc`, `from_bytes_refs` succeeds with claimed read count `enc.length`,
value `v`, and final position right past `enc`, for every fuel above
`sizeOf v`. -/
def DecSpec (table : PsbRefs) (enc : List Nat) (v : PsbValue) : Prop :=
  ∀ fuel D p tail, sizeOf v < fuel → D.drop p = enc ++ tail →
    PsbValue.fromBytesRefs fuel table ⟨D, p⟩ = .ok (enc.length, v, ⟨D, p + enc.length⟩)

theorem decSpec_of_fromBytes (table : PsbRefs) (t : Nat) (payload : List Nat) (v : PsbValue)
    (h20 : t ≠ 0x20) (h21 : t ≠ 0x21)
    (hdec : ∀ D p tail, D.drop p = (t :: payload) ++ tail →
        PsbValue.fromBytes ⟨D, p⟩
          = .ok ((t :: payload).length, v, ⟨D, p + (t :: payload).length⟩)) :
    DecSpec table (t :: payload) v := by
  intro fuel D p tail hfuel hD
  have hD1 : D.drop p = t :: (payload ++ tail) := by simpa using hD
  have hthis := hdec D p tail hD
  unfold PsbValue.fromBytes at hthis
  rw [drop_cons_readU8 hD1] at hthis
  simp only [RRes.bind_ok] at hthis
  cases fuel with
  | zero => omega
  | succ fuel =>
    unfold PsbValue.fromBytesRefs
    rw [drop_cons_readU8 hD1]
    simp only [RRes.bind_ok]
    rw [if_neg (by simpa using h20), if_neg (by simpa using h21)]
    exact hthis

theorem fromBytes_singleByte (t : Nat) (v : PsbValue)
    (harm : ∀ s, PsbValue.fromBytesType t s = .ok (1, v, s))
    {D : List Nat} {p : Nat} {tail : List Nat} (h : D.drop p = t :: tail) :
    PsbValue.fromBytes ⟨D, p⟩ = .ok (1, v, ⟨D, p + 1⟩) := by
  unfold PsbValue.fromBytes
  rw [drop_cons_readU8 h]
  simp only [RRes.bind_ok]
  exact harm _

theorem fromBytes_integer (v : Int) (hlo : -(36028797018963968 : Int) < v)
    (hhi : v < 36028797018963968) {D : List Nat} {p : Nat} {tail : List Nat}
    (h : D.drop p = (0x04 + PsbNumber.getN v)
      :: (PsbNumber.writeInteger (PsbNumber.getN v) v ++ tail)) :
    PsbValue.fromBytes ⟨D, p⟩
      = .ok (PsbNumber.getN v + 1, .number (.integer v), ⟨D, (p + 1) + PsbNumber.getN v⟩) := by
  obtain ⟨hn1, hn7, _, _⟩ := getN_bounds7 v hlo hhi
  unfold PsbValue.fromBytes
  rw [drop_cons_readU8 h]
  simp only [RRes.bind_ok]
  unfold PsbValue.fromBytesType
  rw [if_neg (by intro hc; omega), if_neg (by omega), if_neg (by intro hc; omega),
    if_neg (by omega), if_neg (by intro hc; omega), if_neg (by omega),
    if_pos (by omega : 0x04 ≤ 0x04 + PsbNumber.getN v
      ∧ 0x04 + PsbNumber.getN v ≤ 0x04 + 8)]
  unfold PsbNumber.fromBytes
  rw [if_neg (by omega), if_neg (by omega), if_neg (by omega),
    if_pos (by omega : 0x04 ≤ 0x04 + PsbNumber.getN v ∧ 0x04 + PsbNumber.getN v ≤ 4 + 8),
    Nat.add_sub_cancel_left]
  have hpay : D.drop (p + 1) = leBytes (PsbNumber.getN v) (i64ToU64 v) ++ tail := by
    have := drop_cons_succ h
    rw [this]
    unfold PsbNumber.writeInteger PsbNumber.writeUint
    rw [if_pos (by omega)]
  rw [readInteger_rt v hlo hhi hpay]
  simp only [RRes.bind_ok]

theorem mem_le_max? (l : List Nat) (m : Nat) (h : l.max? = Option.some m) :
    ∀ a ∈ l, a ≤ m :=
  fun a ha => ((List.max?_le_iff (fun _ _ _ => max_le_iff) h).mp le_rfl) a ha

theorem getUintN_bounds (r : Nat) (hr : r < 256 ^ 8) :
    1 ≤ PsbNumber.getUintN r ∧ PsbNumber.getUintN r ≤ 8 ∧ r < 256 ^ PsbNumber.getUintN r := by
  unfold PsbNumber.getUintN
  split_ifs <;> refine ⟨by omega, by omega, by omega⟩

theorem getUintN_le4 (r : Nat) (hr : r < 4294967296) : PsbNumber.getUintN r ≤ 4 := by
  unfold PsbNumber.getUintN
  split_ifs <;> omega

theorem fromBytes_float (f : Nat) (hf : f < 4294967296) {D : List Nat} {p : Nat}
    {tail : List Nat} (h : D.drop p = 0x1e :: (leBytes 4 f ++ tail)) :
    PsbValue.fromBytes ⟨D, p⟩ = .ok (5, .number (.float f), ⟨D, (p + 1) + 4⟩) := by
  unfold PsbValue.fromBytes
  rw [drop_cons_readU8 h]
  simp only [RRes.bind_ok]
  unfold PsbValue.fromBytesType
  rw [if_neg (by omega), if_neg (by omega), if_neg (by omega), if_neg (by omega),
    if_pos (by omega : (0x1e : Nat) = 0x1f ∨ (0x1e : Nat) = 0x1d ∨ (0x1e : Nat) = 0x1e)]
  unfold PsbNumber.fromBytes
  rw [if_neg (by omega), if_pos rfl,
    readExact_of_drop (drop_cons_succ h) (leBytes_length 4 f) (by omega)]
  simp only [RRes.bind_ok, leToNat_leBytes]
  rw [Nat.mod_eq_of_lt (by norm_num at hf ⊢; omega)]

theorem fromBytes_double (d : Nat) (hd : d < U64M) {D : List Nat} {p : Nat}
    {tail : List Nat} (h : D.drop p = 0x1f :: (leBytes 8 d ++ tail)) :
    PsbValue.fromBytes ⟨D, p⟩ = .ok (9, .number (.double d), ⟨D, (p + 1) + 8⟩) := by
  unfold PsbValue.fromBytes
  rw [drop_cons_readU8 h]
  simp only [RRes.bind_ok]
  unfold PsbValue.fromBytesType
  rw [if_neg (by omega), if_neg (by omega), if_neg (by omega), if_neg (by omega),
    if_pos (by omega : (0x1f : Nat) = 0x1f ∨ (0x1f : Nat) = 0x1d ∨ (0x1f : Nat) = 0x1e)]
  unfold PsbNumber.fromBytes
  rw [if_pos rfl, readExact_of_drop (drop_cons_succ h) (leBytes_length 8 d) (by omega)]
  simp only [RRes.bind_ok, leToNat_leBytes]
  rw [Nat.mod_eq_of_lt (by norm_num [U64M] at hd ⊢; omega)]

theorem fromBytes_stringRef (r : Nat) (hr : r < 4294967296) {D : List Nat} {p : Nat}
    {tail : List Nat}
    (h : D.drop p = (0x14 + PsbReference.getN r) :: (PsbReference.writeBytes r ++ tail)) :
    PsbValue.fromBytes ⟨D, p⟩
      = .ok (PsbReference.getN r + 1, .stringRef r, ⟨D, (p + 1) + PsbReference.getN r⟩) := by
  obtain ⟨hn1, _, hrlt⟩ := getUintN_bounds r (by omega)
  have hn4 := getUintN_le4 r hr
  unfold PsbValue.fromBytes
  rw [drop_cons_readU8 h]
  simp only [RRes.bind_ok]
  unfold PsbValue.fromBytesType
  unfold PsbReference.getN
  rw [if_neg (by omega), if_neg (by omega), if_neg (by omega), if_neg (by omega),
    if_neg (by omega), if_pos (by omega : 0x14 < 0x14 + PsbNumber.getUintN r
      ∧ 0x14 + PsbNumber.getUintN r ≤ 0x14 + 4), Nat.add_sub_cancel_left]
  unfold PsbReference.fromBytes
  have hpay : D.drop (p + 1) = leBytes (PsbNumber.getUintN r) r ++ tail := by
    rw [drop_cons_succ h]
    unfold PsbReference.writeBytes PsbReference.getN PsbNumber.writeUint
    rw [if_pos (by omega)]
  rw [readUint_rt _ _ hn1 (by omega) hrlt hpay]
  simp only [RRes.bind_ok]

theorem fromBytes_resource (r : Nat) (hr : r < 4294967296) {D : List Nat} {p : Nat}
    {tail : List Nat}
    (h : D.drop p = (0x18 + PsbReference.getN r) :: (PsbReference.writeBytes r ++ tail)) :
    PsbValue.fromBytes ⟨D, p⟩
      = .ok (PsbReference.getN r + 1, .resource r, ⟨D, (p + 1) + PsbReference.getN r⟩) := by
  obtain ⟨hn1, _, hrlt⟩ := getUintN_bounds r (by omega)
  have hn4 := getUintN_le4 r hr
  unfold PsbValue.fromBytes
  rw [drop_cons_readU8 h]
  simp only [RRes.bind_ok]
  unfold PsbValue.fromBytesType
  unfold PsbReference.getN
  rw [if_neg (by intro hc; omega), if_neg (by omega), if_neg (by intro hc; omega),
    if_neg (by omega), if_neg (by intro hc; omega), if_neg (by omega),
    if_neg (by intro hc; omega), if_neg (by omega),
    if_pos (by omega : 0x18 < 0x18 + PsbNumber.getUintN r
      ∧ 0x18 + PsbNumber.getUintN r ≤ 0x18 + 4), Nat.add_sub_cancel_left]
  unfold PsbReference.fromBytes
  have hpay : D.drop (p + 1) = leBytes (PsbNumber.getUintN r) r ++ tail := by
    rw [drop_cons_succ h]
    unfold PsbReference.writeBytes PsbReference.getN PsbNumber.writeUint
    rw [if_pos (by omega)]
  rw [readUint_rt _ _ hn1 (by omega) hrlt hpay]
  simp only [RRes.bind_ok]

theorem fromBytes_extraResource (r : Nat) (hr : r < 4294967296) {D : List Nat} {p : Nat}
    {tail : List Nat}
    (h : D.drop p = (0x21 + PsbReference.getN r) :: (PsbReference.writeBytes r ++ tail)) :
    PsbValue.fromBytes ⟨D, p⟩
      = .ok (PsbReference.getN r + 1, .extraResource r, ⟨D, (p + 1) + PsbReference.getN r⟩) := by
  obtain ⟨hn1, _, hrlt⟩ := getUintN_bounds r (by omega)
  have hn4 := getUintN_le4 r hr
  unfold PsbValue.fromBytes
  rw [drop_cons_readU8 h]
  simp only [RRes.bind_ok]
  unfold PsbValue.fromBytesType
  unfold PsbReference.getN
  rw [if_neg (by intro hc; omega), if_neg (by omega), if_neg (by intro hc; omega),
    if_neg (by omega), if_neg (by intro hc; omega), if_neg (by omega),
    if_neg (by intro hc; omega), if_neg (by omega), if_neg (by intro hc; omega),
    if_pos (by omega : 0x21 < 0x21 + PsbNumber.getUintN r
      ∧ 0x21 + PsbNumber.getUintN r ≤ 0x21 + 4), Nat.add_sub_cancel_left]
  unfold PsbReference.fromBytes
  have hpay : D.drop (p + 1) = leBytes (PsbNumber.getUintN r) r ++ tail := by
    rw [drop_cons_succ h]
    unfold PsbReference.writeBytes PsbReference.getN PsbNumber.writeUint
    rw [if_pos (by omega)]
  rw [readUint_rt _ _ hn1 (by omega) hrlt hpay]
  simp only [RRes.bind_ok]

theorem getUintN_le8 (r : Nat) : PsbNumber.getUintN r ≤ 8 := by
  unfold PsbNumber.getUintN
  split_ifs <;> omega

theorem readItems_rt (n2 : Nat) (hn1 : 1 ≤ n2) (hn8 : n2 ≤ 8) (us : List Nat)
    (hus : ∀ u ∈ us, u < 256 ^ n2) :
    ∀ D p tail, D.drop p = (us.map (PsbNumber.writeUint n2)).flatten ++ tail →
      PsbUintArray.readItems n2 us.length ⟨D, p⟩
        = .ok (n2 * us.length, us, ⟨D, p + n2 * us.length⟩) := by
  induction us with
  | nil =>
    intro D p tail h
    simp [PsbUintArray.readItems]
  | cons u rest ih =>
    intro D p tail h
    have hwr : PsbNumber.writeUint n2 u = leBytes n2 u := by
      unfold PsbNumber.writeUint
      rw [if_pos (by omega)]
    have hflat : ((u :: rest).map (PsbNumber.writeUint n2)).flatten
        = leBytes n2 u ++ (rest.map (PsbNumber.writeUint n2)).flatten := by
      simp [hwr]
    rw [hflat, List.append_assoc] at h
    have hlen : (u :: rest).length = rest.length + 1 := rfl
    rw [hlen]
    unfold PsbUintArray.readItems
    rw [readUint_rt n2 u hn1 hn8 (hus u (by simp)) h]
    simp only [RRes.bind_ok]
    have hrest : D.drop (p + n2) = (rest.map (PsbNumber.writeUint n2)).flatten ++ tail := by
      have h2 : D.drop p = leBytes n2 u
          ++ ((rest.map (PsbNumber.writeUint n2)).flatten ++ tail) := h
      have := drop_append_past h2
      rwa [leBytes_length] at this
    rw [ih (fun u hu => hus u (by simp [hu])) D (p + n2) tail hrest]
    simp only [RRes.bind_ok]
    have e1 : n2 * (rest.length + 1) = n2 + n2 * rest.length := by ring
    rw [e1, show p + (n2 + n2 * rest.length) = p + n2 + n2 * rest.length from by omega]

theorem flatten_writeUint_length (n2 : Nat) (hn : 1 ≤ n2) (us : List Nat) :
    ((us.map (PsbNumber.writeUint n2)).flatten).length = n2 * us.length := by
  induction us with
  | nil => simp
  | cons u rest ih =>
    have hw : PsbNumber.writeUint n2 u = leBytes n2 u := by
      unfold PsbNumber.writeUint
      rw [if_pos (by omega)]
    simp only [List.map_cons, List.flatten_cons, List.length_append, hw, leBytes_length, ih,
      List.length_cons]
    ring

theorem fromBytes_intArray (us : List Nat) (hall : ∀ u ∈ us, u < U64M)
    (hlen : us.length < U64M) {D : List Nat} {p : Nat} {tail : List Nat}
    (h : D.drop p = (0x0C + PsbUintArray.getN us) :: (PsbUintArray.writeBytes us ++ tail)) :
    PsbValue.fromBytes ⟨D, p⟩
      = .ok ((PsbUintArray.writeBytes us).length + 1, .intArray us,
          ⟨D, (p + 1) + (PsbUintArray.writeBytes us).length⟩) := by
  have hU : U64M = 256 ^ 8 := by norm_num [U64M]
  have hm1 : 1 ≤ PsbUintArray.getN us := le_max_right _ _
  have hm8 : PsbUintArray.getN us ≤ 8 :=
    max_le (getUintN_le8 us.length) (by omega)
  have hlenlt : us.length < 256 ^ PsbUintArray.getN us := by
    obtain ⟨_, _, hb⟩ := getUintN_bounds us.length (hU ▸ hlen)
    calc us.length < 256 ^ PsbNumber.getUintN us.length := hb
    _ ≤ 256 ^ PsbUintArray.getN us :=
        Nat.pow_le_pow_right (by norm_num) (le_max_left _ _)
  unfold PsbValue.fromBytes
  rw [drop_cons_readU8 h]
  simp only [RRes.bind_ok]
  unfold PsbValue.fromBytesType
  rw [if_neg (by intro hc; omega), if_neg (by omega), if_neg (by intro hc; omega),
    if_neg (by omega), if_neg (by intro hc; omega), if_neg (by omega),
    if_neg (by intro hc; omega),
    if_pos (by omega : 0x0C < 0x0C + PsbUintArray.getN us
      ∧ 0x0C + PsbUintArray.getN us ≤ 0x0C + 8), Nat.add_sub_cancel_left]
  unfold PsbUintArray.fromBytes
  have hcw : PsbNumber.writeUint (PsbUintArray.getN us) us.length
      = leBytes (PsbUintArray.getN us) us.length := by
    unfold PsbNumber.writeUint
    rw [if_pos (by omega)]
  cases hus : us with
  | nil =>
    have hwb : PsbUintArray.writeBytes ([] : List Nat)
        = leBytes (PsbUintArray.getN ([] : List Nat)) 0 ++ [0x0D] := by
      unfold PsbUintArray.writeBytes
      rw [if_pos (by simp)]
      subst hus
      simpa using hcw
    subst hus
    rw [hwb, List.append_assoc] at h
    have hd1 := drop_cons_succ h
    rw [readUint_rt _ 0 hm1 (by omega) (by positivity) hd1]
    simp only [RRes.bind_ok]
    have hd2 : D.drop (p + 1 + PsbUintArray.getN ([] : List Nat)) = 0x0D :: tail := by
      have := drop_append_past hd1
      rwa [leBytes_length] at this
    rw [drop_cons_readU8 hd2]
    simp only [RRes.bind_ok, PsbUintArray.readItems]
    refine congrArg RRes.ok (Prod.ext ?_ (Prod.ext rfl ?_))
    · simp [hwb]
    · simp [BStream.mk.injEq, hwb]
      omega
  | cons u0 rest =>
    subst hus
    obtain ⟨mx, hmx⟩ : ∃ mx, (u0 :: rest).max? = Option.some mx := by
      cases hq : (u0 :: rest).max? with
      | none => exact absurd (List.max?_eq_none_iff.mp hq) (by simp)
      | some mx => exact ⟨mx, rfl⟩
    have hitem : PsbUintArray.getItemN (u0 :: rest) = PsbNumber.getUintN mx := by
      unfold PsbUintArray.getItemN
      rw [hmx]
      rfl
    obtain ⟨hn21, hn28, hmxlt⟩ :=
      getUintN_bounds mx (hU ▸ hall mx (List.max?_mem max_choice hmx))
    have hn21x : 1 ≤ PsbUintArray.getItemN (u0 :: rest) := by rw [hitem]; exact hn21
    have hn28x : PsbUintArray.getItemN (u0 :: rest) ≤ 8 := by rw [hitem]; exact hn28
    have husall : ∀ u ∈ u0 :: rest, u < 256 ^ PsbUintArray.getItemN (u0 :: rest) := by
      intro u hu
      rw [hitem]
      exact lt_of_le_of_lt (mem_le_max? _ mx hmx u hu) hmxlt
    have hwb : PsbUintArray.writeBytes (u0 :: rest)
        = leBytes (PsbUintArray.getN (u0 :: rest)) (u0 :: rest).length
          ++ ((PsbUintArray.getItemN (u0 :: rest) + 0x0C)
            :: ((u0 :: rest).map
              (PsbNumber.writeUint (PsbUintArray.getItemN (u0 :: rest)))).flatten) := by
      unfold PsbUintArray.writeBytes
      rw [if_neg (by simp), hcw]
      simp
    rw [hwb, List.append_assoc] at h
    have hd1 := drop_cons_succ h
    rw [readUint_rt _ _ hm1 (by omega) hlenlt hd1]
    simp only [RRes.bind_ok]
    have hd2 : D.drop (p + 1 + PsbUintArray.getN (u0 :: rest))
        = (PsbUintArray.getItemN (u0 :: rest) + 0x0C)
          :: (((u0 :: rest).map
            (PsbNumber.writeUint (PsbUintArray.getItemN (u0 :: rest)))).flatten ++ tail) := by
      have := drop_append_past hd1
      rwa [leBytes_length] at this
    rw [drop_cons_readU8 hd2]
    simp only [RRes.bind_ok]
    rw [show (PsbUintArray.getItemN (u0 :: rest) + 0x0C + 256 - 0x0C) % 256
      = PsbUintArray.getItemN (u0 :: rest) from by omega]
    have hd3 := drop_cons_succ hd2
    rw [readItems_rt _ (by omega) (by omega) (u0 :: rest) husall D _ tail hd3]
    simp only [RRes.bind_ok]
    have hwblen : (PsbUintArray.writeBytes (u0 :: rest)).length
        = PsbUintArray.getN (u0 :: rest) + 1
          + PsbUintArray.getItemN (u0 :: rest) * (u0 :: rest).length := by
      rw [hwb]
      simp only [List.length_append, leBytes_length, List.length_cons,
        flatten_writeUint_length _ hn21x]
      omega
    refine congrArg RRes.ok (Prod.ext (by omega) (Prod.ext rfl ?_))
    simp only [BStream.mk.injEq]
    exact ⟨trivial, by omega⟩

/-- Strict ascending key order (the canonical-`HashMap` invariant). -/
def entriesSortedB : List (RStr × PsbValue) → Bool
  | [] => true
  | [_] => true
  | a :: b :: rest => strLt a.1 b.1 && entriesSortedB (b :: rest)

mutual

/-- Domain of the amended round-trip claim: no `String` values, no
`Integer` 0 or of width 8, reference indices below 2^32, canonical zero
floats, double patterns below 2^64, `u64` array elements, canonically
sorted objects, and no `CompilerDecimal`. -/
def wfV : PsbValue → Bool
  | .none => true
  | .null => true
  | .bool _ => true
  | .number (.integer i) =>
    decide (i ≠ 0) && decide (-(36028797018963968 : Int) < i)
      && decide (i < 36028797018963968)
  | .number (.double d) => decide (d < U64M)
  | .number (.float f) => decide (f < 4294967296) && (!f32IsZero f || decide (f = 0))
  | .intArray xs => xs.all (fun u => decide (u < U64M))
  | .string _ => false
  | .stringRef r => decide (r < 4294967296)
  | .resource r => decide (r < 4294967296)
  | .extraResource r => decide (r < 4294967296)
  | .list xs => wfList xs
  | .object es => entriesSortedB es && wfEntries es
  | .compilerNumber => true
  | .compilerString => true
  | .compilerResource => true
  | .compilerDecimal => false
  | .compilerArray => true
  | .compilerBool => true
  | .compilerBinaryTree => true

def wfList : List PsbValue → Bool
  | [] => true
  | v :: rest => wfV v && wfList rest

def wfEntries : List (RStr × PsbValue) → Bool
  | [] => true
  | e :: rest => wfV e.2 && wfEntries rest

end

mutual

/-- Every object key reachable in the value is present in the table's
names (so `find_name_index` succeeds during encoding). -/
def keysOkV (table : PsbRefs) : PsbValue → Bool
  | .object es => keysOkEntries table es
  | .list xs => keysOkList table xs
  | _ => true

def keysOkEntries (table : PsbRefs) : List (RStr × PsbValue) → Bool
  | [] => true
  | e :: rest => table.names.contains e.1 && keysOkV table e.2 && keysOkEntries table rest

def keysOkList (table : PsbRefs) : List PsbValue → Bool
  | [] => true
  | v :: rest => keysOkV table v && keysOkList table rest

end

mutual

/-- Crude upper bound on the encoded size of a value, independent of the
reference table; used to keep all offset arithmetic below 2^63. -/
def maxEncSize : PsbValue → Nat
  | .intArray xs => 11 + 8 * xs.length
  | .list xs => 12 + 8 * xs.length + sizeList xs
  | .object es => 23 + 16 * es.length + sizeEntries es
  | _ => 10

def sizeList : List PsbValue → Nat
  | [] => 0
  | v :: rest => maxEncSize v + sizeList rest

def sizeEntries : List (RStr × PsbValue) → Nat
  | [] => 0
  | e :: rest => maxEncSize e.2 + sizeEntries rest

end

theorem strLt_irrefl (a : RStr) : strLt a a = false := by
  induction a with
  | nil => rfl
  | cons x xs ih => simp [strLt, ih]

theorem strLt_asymm (a b : RStr) (h : strLt a b = true) : strLt b a = false := by
  induction a generalizing b with
  | nil => cases b with
    | nil => simp [strLt] at h
    | cons y ys => simp [strLt]
  | cons x xs ih =>
    cases b with
    | nil => simp [strLt] at h
    | cons y ys =>
      simp only [strLt] at h ⊢
      by_cases hxy : x < y
      · simp [hxy, Nat.lt_asymm hxy, Nat.ne_of_gt hxy]
      · by_cases hyx : y < x
        · simp [hxy, hyx] at h
        · simp only [hxy, if_false, hyx, if_false] at h ⊢
          exact ih ys h

theorem strLt_ne (a b : RStr) (h : strLt a b = true) : a ≠ b := by
  intro he
  subst he
  rw [strLt_irrefl] at h
  cases h

theorem strLt_trans (a : RStr) : ∀ b c, strLt a b = true → strLt b c = true →
    strLt a c = true := by
  induction a with
  | nil =>
    intro b c hab hbc
    cases b with
    | nil => cases hab
    | cons y ys =>
      cases c with
      | nil => simp [strLt] at hbc
      | cons z zs => rfl
  | cons x xs ih =>
    intro b c hab hbc
    cases b with
    | nil => simp [strLt] at hab
    | cons y ys =>
      cases c with
      | nil => simp [strLt] at hbc
      | cons z zs =>
        simp only [strLt] at hab hbc ⊢
        by_cases hxy : x < y
        · by_cases hyz : y < z
          · simp [show x < z from by omega]
          · simp only [hyz, if_false] at hbc
            by_cases hzy : z < y
            · simp [hzy] at hbc
            · simp [show x < z from by omega]
        · simp only [hxy, if_false] at hab
          by_cases hyx : y < x
          · simp [hyx] at hab
          · have hxey : x = y := by omega
            subst hxey
            rw [if_neg (Nat.lt_irrefl x)] at hab
            by_cases hxz : x < z
            · simp [hxz]
            · simp only [hxz, if_false] at hbc ⊢
              by_cases hzx : z < x
              · simp [hzx] at hbc
              · simp only [hzx, if_false] at hbc ⊢
                exact ih ys zs hab hbc

theorem entriesSortedB_tail (a : RStr × PsbValue) (rest : List (RStr × PsbValue))
    (h : entriesSortedB (a :: rest) = true) : entriesSortedB rest = true := by
  cases rest with
  | nil => rfl
  | cons b r =>
    simp only [entriesSortedB, Bool.and_eq_true] at h
    exact h.2

theorem entriesSortedB_chain (y : RStr × PsbValue) (rest : List (RStr × PsbValue)) :
    ∀ pre, entriesSortedB (pre ++ y :: rest) = true →
      ∀ x ∈ pre, strLt x.1 y.1 = true := by
  intro pre
  induction pre with
  | nil => intro _ x hx; cases hx
  | cons a pre' ih =>
    intro h x hx
    have htl : entriesSortedB (pre' ++ y :: rest) = true := entriesSortedB_tail a _ h
    have hhead : strLt a.1 (((pre' ++ y :: rest).headD y).1) = true := by
      cases pre' with
      | nil =>
        simp only [List.nil_append, List.headD_cons]
        simp only [List.cons_append, List.nil_append, entriesSortedB,
          Bool.and_eq_true] at h
        exact h.1
      | cons b pre'' =>
        simp only [List.cons_append, List.headD_cons]
        simp only [List.cons_append, entriesSortedB, Bool.and_eq_true] at h
        exact h.1
    rcases List.mem_cons.mp hx with rfl | hx2
    · cases pre' with
      | nil =>
        simp only [List.nil_append, List.headD_cons] at hhead
        exact hhead
      | cons b pre'' =>
        simp only [List.cons_append, List.headD_cons] at hhead
        have hby : strLt b.1 y.1 = true := ih htl b (by simp)
        exact strLt_trans _ _ _ hhead hby
    · exact ih htl x hx2

theorem entriesSortedB_lt_head (e f : RStr × PsbValue) (rest : List (RStr × PsbValue))
    (h : entriesSortedB (e :: f :: rest) = true) : strLt e.1 f.1 = true := by
  simp only [entriesSortedB, Bool.and_eq_true] at h
  exact h.1

theorem sortEntries_sorted_id (es : List (RStr × PsbValue))
    (hs : entriesSortedB es = true) : sortEntries es = es := by
  induction es with
  | nil => rfl
  | cons e rest ih =>
    have htl := entriesSortedB_tail e rest hs
    unfold sortEntries
    rw [ih htl]
    cases rest with
    | nil => rfl
    | cons f rest' =>
      unfold entryInsert
      rw [if_pos (entriesSortedB_lt_head e f rest' hs)]

theorem mapInsert_append (k : RStr) (v : PsbValue) (m : List (RStr × PsbValue))
    (hm : ∀ e ∈ m, strLt e.1 k = true) : mapInsert k v m = m ++ [(k, v)] := by
  induction m with
  | nil => rfl
  | cons e rest ih =>
    obtain ⟨k0, v0⟩ := e
    have hlt : strLt k0 k = true := hm (k0, v0) (by simp)
    unfold mapInsert
    rw [if_neg (by rw [strLt_asymm _ _ hlt]; simp),
      if_neg (fun he => strLt_ne _ _ hlt he.symm), ih (fun e he => hm e (by simp [he]))]
    rfl

theorem objOfEntries_go (es : List (RStr × PsbValue)) :
    ∀ pre, entriesSortedB (pre ++ es) = true →
      es.foldl (fun m kv => mapInsert kv.1 kv.2 m) pre = pre ++ es := by
  induction es with
  | nil => intro pre _; simp
  | cons e rest ih =>
    intro pre hs
    have hpre : ∀ x ∈ pre, strLt x.1 e.1 = true := entriesSortedB_chain e rest pre hs
    simp only [List.foldl_cons]
    rw [mapInsert_append e.1 e.2 pre hpre]
    have : pre ++ [(e.1, e.2)] ++ rest = pre ++ e :: rest := by simp
    have hs' : entriesSortedB ((pre ++ [(e.1, e.2)]) ++ rest) = true := by
      rw [List.append_assoc]
      simpa using hs
    rw [ih (pre ++ [(e.1, e.2)]) hs']
    simp

theorem objOfEntries_sorted (es : List (RStr × PsbValue))
    (hs : entriesSortedB es = true) : objOfEntries es = es := by
  have := objOfEntries_go es [] (by simpa using hs)
  simpa [objOfEntries] using this

theorem findIdx?_get (k : RStr) : ∀ (l : List RStr) idx,
    l.findIdx? (· = k) = Option.some idx → l.get? idx = Option.some k := by
  intro l
  induction l with
  | nil => intro idx h; cases h
  | cons x xs ih =>
    intro idx h
    rw [List.findIdx?_cons, List.findIdx?_succ] at h
    by_cases hx : x = k
    · rw [if_pos (by simp [hx])] at h
      cases h
      simp [hx]
    · rw [if_neg (by simp [hx])] at h
      cases hr : xs.findIdx? (· = k) with
      | none => rw [hr] at h; cases h
      | some j =>
        rw [hr] at h
        simp only [Option.map_some'] at h
        cases h
        simpa using ih j hr

theorem contains_findIdx? (k : RStr) : ∀ (l : List RStr),
    l.contains k = true → ∃ idx, l.findIdx? (· = k) = Option.some idx := by
  intro l
  induction l with
  | nil => intro h; cases h
  | cons x xs ih =>
    intro h
    rw [List.findIdx?_cons, List.findIdx?_succ]
    by_cases hx : x = k
    · exact ⟨0, by simp [hx]⟩
    · have hxs : xs.contains k = true := by
        simp only [List.contains_cons, Bool.or_eq_true] at h
        rcases h with h | h
        · exact absurd (beq_iff_eq.mp h).symm hx
        · exact h
      obtain ⟨j, hj⟩ := ih hxs
      exact ⟨j + 1, by rw [if_neg (by simp [hx]), hj]; rfl⟩

/-- Shape of the offsets/buffer pair produced by the list-children write
loop starting at running offset `k`: each child contributes its offset and
its encoded bytes, and satisfies the decoding specification. -/
def ChildrenLayout (table : PsbRefs) : Nat → List PsbValue → List Nat → List Nat → Prop
  | _, [], offs, buf => offs = [] ∧ buf = []
  | k, v :: rest, offs, buf => ∃ enc offs' buf',
      offs = k :: offs' ∧ buf = enc ++ buf' ∧
      PsbValue.writeBytesRefs table v = .ok enc ∧ 1 ≤ enc.length ∧
      enc.length ≤ maxEncSize v ∧ DecSpec table enc v ∧
      ChildrenLayout table (k + enc.length) rest offs' buf'

/-- Shape of the name-refs/offsets/buffer triple produced by the
object-children write loop. -/
def ObjLayout (table : PsbRefs) :
    Nat → List (RStr × PsbValue) → List Nat → List Nat → List Nat → Prop
  | _, [], nrs, offs, buf => nrs = [] ∧ offs = [] ∧ buf = []
  | k, e :: rest, nrs, offs, buf => ∃ idx enc nrs' offs' buf',
      nrs = idx :: nrs' ∧ offs = k :: offs' ∧ buf = enc ++ buf' ∧
      table.findNameIndex e.1 = Option.some idx ∧
      table.names.get? idx = Option.some e.1 ∧ idx < table.names.length ∧
      PsbValue.writeBytesRefs table e.2 = .ok enc ∧ 1 ≤ enc.length ∧
      enc.length ≤ maxEncSize e.2 ∧ DecSpec table enc e.2 ∧
      ObjLayout table (k + enc.length) rest nrs' offs' buf'

theorem writeChildren_spec (table : PsbRefs) : ∀ (xs : List PsbValue) (k : Nat),
    k + sizeList xs < 9223372036854775808 →
    (∀ x ∈ xs, ∃ enc, PsbValue.writeBytesRefs table x = .ok enc ∧ 1 ≤ enc.length ∧
      enc.length ≤ maxEncSize x ∧ DecSpec table enc x) →
    ∃ offs buf, PsbValue.writeChildren table k xs = .ok (offs, buf) ∧
      ChildrenLayout table k xs offs buf ∧ buf.length ≤ sizeList xs ∧
      offs.length = xs.length := by
  intro xs
  induction xs with
  | nil =>
    intro k _ _
    exact ⟨[], [], by simp [PsbValue.writeChildren], ⟨rfl, rfl⟩, by simp [sizeList], rfl⟩
  | cons v rest ih =>
    intro k hk hall
    obtain ⟨enc, henc, h1, hle, hdec⟩ := hall v (by simp)
    have hsz : sizeList (v :: rest) = maxEncSize v + sizeList rest := rfl
    obtain ⟨offs', buf', hwc, hlay, hbl, hol⟩ :=
      ih (k + enc.length) (by omega) (fun x hx => hall x (by simp [hx]))
    refine ⟨(k % U64M) :: offs', enc ++ buf', ?_, ?_, ?_, ?_⟩
    · unfold PsbValue.writeChildren
      rw [henc, RRes.bind_ok, hwc, RRes.bind_ok]
    · rw [Nat.mod_eq_of_lt (by norm_num [U64M]; omega)]
      exact ⟨enc, offs', buf', rfl, rfl, henc, h1, hle, hdec, hlay⟩
    · simp only [List.length_append]
      omega
    · simp [hol]

theorem writeObjectChildren_spec (table : PsbRefs) :
    ∀ (es : List (RStr × PsbValue)) (k : Nat),
      k + sizeEntries es < 9223372036854775808 →
      keysOkEntries table es = true →
      (∀ e ∈ es, ∃ enc, PsbValue.writeBytesRefs table e.2 = .ok enc ∧ 1 ≤ enc.length ∧
        enc.length ≤ maxEncSize e.2 ∧ DecSpec table enc e.2) →
      ∃ nrs offs buf, PsbValue.writeObjectChildren table k es = .ok (nrs, offs, buf) ∧
        ObjLayout table k es nrs offs buf ∧ buf.length ≤ sizeEntries es ∧
        nrs.length = es.length ∧ offs.length = es.length := by
  intro es
  induction es with
  | nil =>
    intro k _ _ _
    exact ⟨[], [], [], by simp [PsbValue.writeObjectChildren], ⟨rfl, rfl, rfl⟩,
      by simp [sizeEntries], rfl, rfl⟩
  | cons e rest ih =>
    intro k hk hkeys hall
    obtain ⟨k0, cv⟩ := e
    simp only [keysOkEntries, Bool.and_eq_true] at hkeys
    obtain ⟨⟨hcont, _⟩, hkeysrest⟩ := hkeys
    obtain ⟨idx, hidx⟩ := contains_findIdx? k0 table.names hcont
    have hget : table.names.get? idx = Option.some k0 := findIdx?_get k0 table.names idx hidx
    have hlt : idx < table.names.length := by
      rcases List.get?_eq_some.mp hget with ⟨h, _⟩
      exact h
    obtain ⟨enc, henc, h1, hle, hdec⟩ := hall (k0, cv) (by simp)
    have hle2 : enc.length ≤ maxEncSize cv := hle
    have hsz : sizeEntries ((k0, cv) :: rest) = maxEncSize cv + sizeEntries rest := rfl
    obtain ⟨nrs', offs', buf', hwc, hlay, hbl, hnl, hol⟩ :=
      ih (k + enc.length) (by omega) hkeysrest
        (fun x hx => hall x (by simp [hx]))
    refine ⟨idx :: nrs', (k % U64M) :: offs', enc ++ buf', ?_, ?_, ?_, ?_, ?_⟩
    · unfold PsbValue.writeObjectChildren
      rw [show table.findNameIndex k0 = Option.some idx from hidx]
      simp only [RRes.bind_ok]
      rw [henc, RRes.bind_ok, hwc, RRes.bind_ok]
    · rw [Nat.mod_eq_of_lt (by norm_num [U64M]; omega)]
      exact ⟨idx, enc, nrs', offs', buf', rfl, rfl, rfl, hidx, hget, hlt, henc, h1, hle,
        hdec, hlay⟩
    · simp only [List.length_append]
      omega
    · simp [hnl]
    · simp [hol]

theorem getLast?_mem_nat (l : List Nat) (a : Nat) (h : l.getLast? = Option.some a) :
    a ∈ l := by
  have hx : a ∈ l.getLast? := Option.mem_def.mpr h
  obtain ⟨hne, he⟩ := List.mem_getLast?_eq_getLast hx
  rw [he]
  exact List.getLast_mem hne

theorem ChildrenLayout_lb (table : PsbRefs) : ∀ (xs : List PsbValue) (offs buf : List Nat)
    (k : Nat), ChildrenLayout table k xs offs buf → ∀ o ∈ offs, k ≤ o := by
  intro xs
  induction xs with
  | nil =>
    intro offs buf k hlay o ho
    rw [hlay.1] at ho
    cases ho
  | cons v rest ih =>
    intro offs buf k hlay o ho
    obtain ⟨enc, offs', buf', hoffs, _, _, h1, _, _, hlay'⟩ := hlay
    subst hoffs
    rcases List.mem_cons.mp ho with rfl | ho2
    · exact le_rfl
    · have := ih offs' buf' (k + enc.length) hlay' o ho2
      omega

theorem ObjLayout_lb (table : PsbRefs) : ∀ (es : List (RStr × PsbValue))
    (nrs offs buf : List Nat) (k : Nat), ObjLayout table k es nrs offs buf →
    ∀ o ∈ offs, k ≤ o := by
  intro es
  induction es with
  | nil =>
    intro nrs offs buf k hlay o ho
    rw [hlay.2.1] at ho
    cases ho
  | cons e rest ih =>
    intro nrs offs buf k hlay o ho
    obtain ⟨idx, enc, nrs', offs', buf', _, hoffs, _, _, _, _, _, h1, _, _, hlay'⟩ := hlay
    subst hoffs
    rcases List.mem_cons.mp ho with rfl | ho2
    · exact le_rfl
    · have := ih nrs' offs' buf' (k + enc.length) hlay' o ho2
      omega

theorem children_decode (table : PsbRefs) (fuel : Nat) (D : List Nat) (anchor : Nat)
    (tail : List Nat) (maxOff : Nat) :
    ∀ (xs : List PsbValue) (offs buf : List Nat) (k : Nat) (vsIn : List PsbValue)
      (trIn : Nat) (q : Nat),
      ChildrenLayout table k xs offs buf →
      xs ≠ [] →
      (∀ x ∈ xs, sizeOf x < fuel) →
      D.drop (anchor + k) = buf ++ tail →
      offs.getLast? = Option.some maxOff →
      List.foldlM
        (fun acc o =>
          (PsbValue.fromBytesRefs fuel table (acc.2.2.seekTo (anchor + o))).bind fun r =>
            (.ok (if maxOff = o then r.1 + o else acc.1, acc.2.1 ++ [r.2.1], r.2.2)
              : PRes (Nat × List PsbValue × BStream)))
        (trIn, vsIn, ⟨D, q⟩) offs
      = .ok (k + buf.length, vsIn ++ xs, ⟨D, anchor + (k + buf.length)⟩) := by
  intro xs
  induction xs with
  | nil =>
    intro offs buf k vsIn trIn q hlay hne
    exact absurd rfl hne
  | cons v rest ih =>
    intro offs buf k vsIn trIn q hlay hne hfuel hD hlast
    obtain ⟨enc, offs', buf', hoffs, hbuf, henc, h1, hle, hdec, hlay'⟩ := hlay
    subst hoffs hbuf
    have hDv : D.drop (anchor + k) = enc ++ (buf' ++ tail) := by
      rw [hD, List.append_assoc]
    have hdecv := hdec fuel D (anchor + k) (buf' ++ tail) (hfuel v (by simp)) hDv
    rw [List.foldlM_cons]
    simp only []
    rw [show (BStream.mk D q).seekTo (anchor + k) = ⟨D, anchor + k⟩ from rfl, hdecv]
    simp only [RRes.bind_ok]
    cases rest with
    | nil =>
      obtain ⟨hoffs', hbuf'⟩ := hlay'
      subst hoffs' hbuf'
      have hmk : maxOff = k := by
        simp only [List.getLast?_singleton, Option.some.injEq] at hlast
        exact hlast.symm
      rw [if_pos hmk]
      simp only [List.foldlM_nil]
      refine congrArg RRes.ok (Prod.ext ?_ (Prod.ext ?_ ?_))
      · simp
        omega
      · simp
      · simp only [BStream.mk.injEq]
        exact ⟨trivial, by simp; omega⟩
    | cons r2 rest2 =>
      obtain ⟨enc2, offs2, buf2, hoffs2, -, -, -, -, -, -⟩ := id hlay'
      have hlast' : offs'.getLast? = Option.some maxOff := by
        rw [hoffs2] at hlast ⊢
        rw [List.getLast?_cons_cons] at hlast
        exact hlast
      have hmne : maxOff ≠ k := by
        have hmem := getLast?_mem_nat offs' maxOff hlast'
        have := ChildrenLayout_lb table (r2 :: rest2) offs' buf' (k + enc.length) hlay'
          maxOff hmem
        omega
      rw [if_neg hmne]
      have hD' : D.drop (anchor + (k + enc.length)) = buf' ++ tail := by
        have := drop_append_past hDv
        rw [show anchor + (k + enc.length) = anchor + k + enc.length from by omega]
        exact this
      rw [RRes.mbind_ok,
        ih offs' buf' (k + enc.length) (vsIn ++ [v]) trIn (anchor + k + enc.length)
        hlay' (by simp) (fun x hx => hfuel x (by simp [hx])) hD' hlast']
      refine congrArg RRes.ok (Prod.ext ?_ (Prod.ext ?_ ?_))
      · simp
        omega
      · simp
      · simp only [BStream.mk.injEq]
        exact ⟨trivial, by simp; omega⟩

theorem entries_decode (table : PsbRefs) (fuel : Nat) (D : List Nat) (anchor : Nat)
    (tail : List Nat) (maxOff : Nat) :
    ∀ (es : List (RStr × PsbValue)) (nrs offs buf : List Nat) (k : Nat)
      (esIn : List (RStr × PsbValue)) (trIn : Nat) (q : Nat),
      ObjLayout table k es nrs offs buf →
      es ≠ [] →
      (∀ e ∈ es, sizeOf e.2 < fuel) →
      D.drop (anchor + k) = buf ++ tail →
      offs.getLast? = Option.some maxOff →
      List.foldlM
        (fun acc p =>
          (PsbValue.fromBytesRefs fuel table (acc.2.2.seekTo (anchor + p.2))).bind fun r =>
            match table.names.get? p.1 with
            | Option.none =>
              (.err .invalidOffsetTable : PRes (Nat × List (RStr × PsbValue) × BStream))
            | Option.some key =>
              .ok (if maxOff = p.2 then r.1 + p.2 else acc.1, acc.2.1 ++ [(key, r.2.1)],
                r.2.2))
        (trIn, esIn, ⟨D, q⟩) (nrs.zip offs)
      = .ok (k + buf.length, esIn ++ es, ⟨D, anchor + (k + buf.length)⟩) := by
  intro es
  induction es with
  | nil =>
    intro nrs offs buf k esIn trIn q hlay hne
    exact absurd rfl hne
  | cons e rest ih =>
    intro nrs offs buf k esIn trIn q hlay hne hfuel hD hlast
    obtain ⟨idx, enc, nrs', offs', buf', hnrs, hoffs, hbuf, hidx, hget, hlt, henc, h1,
      hle, hdec, hlay'⟩ := hlay
    subst hnrs hoffs hbuf
    have hDv : D.drop (anchor + k) = enc ++ (buf' ++ tail) := by
      rw [hD, List.append_assoc]
    have hdecv := hdec fuel D (anchor + k) (buf' ++ tail) (hfuel e (by simp)) hDv
    rw [List.zip_cons_cons, List.foldlM_cons]
    simp only []
    rw [show (BStream.mk D q).seekTo (anchor + k) = ⟨D, anchor + k⟩ from rfl, hdecv]
    simp only [RRes.bind_ok]
    rw [hget]
    cases rest with
    | nil =>
      obtain ⟨hnrs', hoffs', hbuf'⟩ := hlay'
      subst hnrs' hoffs' hbuf'
      have hmk : maxOff = k := by
        simp only [List.getLast?_singleton, Option.some.injEq] at hlast
        exact hlast.symm
      rw [if_pos hmk]
      simp only [List.zip_nil_left, List.foldlM_nil]
      refine congrArg RRes.ok (Prod.ext ?_ (Prod.ext ?_ ?_))
      · simp
        omega
      · simp
      · simp only [BStream.mk.injEq]
        exact ⟨trivial, by simp; omega⟩
    | cons r2 rest2 =>
      obtain ⟨idx2, enc2, nrs2, offs2, buf2, -, hoffs2, -, -, -, -, -, -, -, -, -⟩ :=
        id hlay'
      have hlast' : offs'.getLast? = Option.some maxOff := by
        rw [hoffs2] at hlast ⊢
        rw [List.getLast?_cons_cons] at hlast
        exact hlast
      have hmne : maxOff ≠ k := by
        have hmem := getLast?_mem_nat offs' maxOff hlast'
        have := ObjLayout_lb table (r2 :: rest2) nrs' offs' buf' (k + enc.length) hlay'
          maxOff hmem
        omega
      rw [if_neg hmne]
      have hD' : D.drop (anchor + (k + enc.length)) = buf' ++ tail := by
        have := drop_append_past hDv
        rw [show anchor + (k + enc.length) = anchor + k + enc.length from by omega]
        exact this
      rw [RRes.mbind_ok,
        ih nrs' offs' buf' (k + enc.length) (esIn ++ [(e.1, e.2)]) trIn
        (anchor + k + enc.length)
        hlay' (by simp) (fun x hx => hfuel x (by simp [hx])) hD' hlast']
      refine congrArg RRes.ok (Prod.ext ?_ (Prod.ext ?_ ?_))
      · simp
        omega
      · simp
      · simp only [BStream.mk.injEq]
        exact ⟨trivial, by simp; omega⟩

theorem decSpec_singleByte (table : PsbRefs) (t : Nat) (v : PsbValue)
    (h20 : t ≠ 0x20) (h21 : t ≠ 0x21)
    (harm : ∀ s, PsbValue.fromBytesType t s = .ok (1, v, s)) :
    DecSpec table [t] v := by
  apply decSpec_of_fromBytes table t [] v h20 h21
  intro D p tail hD
  exact fromBytes_singleByte t v harm (by simpa using hD)

theorem writeUint_length (n x : Nat) (hn : 1 ≤ n) :
    (PsbNumber.writeUint n x).length = n := by
  unfold PsbNumber.writeUint
  rw [if_pos (by omega)]
  exact leBytes_length n x

theorem getUintN_ge1 (x : Nat) : 1 ≤ PsbNumber.getUintN x := by
  unfold PsbNumber.getUintN
  split_ifs <;> omega

theorem uintArrayWriteBytes_length (us : List Nat) :
    (PsbUintArray.writeBytes us).length
      = PsbUintArray.getN us + 1 + PsbUintArray.getItemN us * us.length := by
  have hn1 : 1 ≤ PsbUintArray.getN us := le_max_right _ _
  unfold PsbUintArray.writeBytes
  by_cases h : us.length < 1
  · have hnil : us = [] := List.length_eq_zero.mp (by omega)
    subst hnil
    simp [writeUint_length _ _ hn1, PsbUintArray.getItemN]
  · rw [if_neg h]
    simp only [List.length_append, List.length_cons, List.length_nil,
      writeUint_length _ _ hn1,
      flatten_writeUint_length (PsbUintArray.getItemN us)
        (by unfold PsbUintArray.getItemN; exact getUintN_ge1 _) us]

theorem maxEncSize_le_sizeList : ∀ (xs : List PsbValue), ∀ x ∈ xs,
    maxEncSize x ≤ sizeList xs := by
  intro xs
  induction xs with
  | nil => intro x hx; cases hx
  | cons v rest ih =>
    intro x hx
    have hs : sizeList (v :: rest) = maxEncSize v + sizeList rest := rfl
    rcases List.mem_cons.mp hx with rfl | hx2
    · omega
    · have := ih x hx2
      omega

theorem maxEncSize_le_sizeEntries : ∀ (es : List (RStr × PsbValue)), ∀ e ∈ es,
    maxEncSize e.2 ≤ sizeEntries es := by
  intro es
  induction es with
  | nil => intro e he; cases he
  | cons f rest ih =>
    intro e he
    have hs : sizeEntries (f :: rest) = maxEncSize f.2 + sizeEntries rest := rfl
    rcases List.mem_cons.mp he with rfl | he2
    · omega
    · have := ih e he2
      omega

theorem wfList_mem : ∀ (xs : List PsbValue), wfList xs = true → ∀ x ∈ xs,
    wfV x = true := by
  intro xs
  induction xs with
  | nil => intro _ x hx; cases hx
  | cons v rest ih =>
    intro h x hx
    simp only [wfList, Bool.and_eq_true] at h
    rcases List.mem_cons.mp hx with rfl | hx2
    · exact h.1
    · exact ih h.2 x hx2

theorem wfEntries_mem : ∀ (es : List (RStr × PsbValue)), wfEntries es = true →
    ∀ e ∈ es, wfV e.2 = true := by
  intro es
  induction es with
  | nil => intro _ e he; cases he
  | cons f rest ih =>
    intro h e he
    simp only [wfEntries, Bool.and_eq_true] at h
    rcases List.mem_cons.mp he with rfl | he2
    · exact h.1
    · exact ih h.2 e he2

theorem keysOkList_mem (table : PsbRefs) : ∀ (xs : List PsbValue),
    keysOkList table xs = true → ∀ x ∈ xs, keysOkV table x = true := by
  intro xs
  induction xs with
  | nil => intro _ x hx; cases hx
  | cons v rest ih =>
    intro h x hx
    simp only [keysOkList, Bool.and_eq_true] at h
    rcases List.mem_cons.mp hx with rfl | hx2
    · exact h.1
    · exact ih h.2 x hx2

theorem keysOkEntries_mem (table : PsbRefs) : ∀ (es : List (RStr × PsbValue)),
    keysOkEntries table es = true → ∀ e ∈ es, keysOkV table e.2 = true := by
  intro es
  induction es with
  | nil => intro _ e he; cases he
  | cons f rest ih =>
    intro h e he
    simp only [keysOkEntries, Bool.and_eq_true] at h
    rcases List.mem_cons.mp he with rfl | he2
    · exact h.1.2
    · exact ih h.2 e he2

theorem sizeOf_snd_lt_of_mem (e : RStr × PsbValue) (es : List (RStr × PsbValue))
    (he : e ∈ es) : sizeOf e.2 < sizeOf es := by
  have h1 := List.sizeOf_lt_of_mem he
  obtain ⟨k, cv⟩ := e
  simp only [Prod.mk.sizeOf_spec] at h1
  show sizeOf cv < sizeOf es
  omega

theorem ChildrenLayout_ub (table : PsbRefs) : ∀ (xs : List PsbValue) (offs buf : List Nat)
    (k : Nat), ChildrenLayout table k xs offs buf → ∀ o ∈ offs, o ≤ k + buf.length := by
  intro xs
  induction xs with
  | nil =>
    intro offs buf k hlay o ho
    rw [hlay.1] at ho
    cases ho
  | cons v rest ih =>
    intro offs buf k hlay o ho
    obtain ⟨enc, offs', buf', hoffs, hbuf, _, h1, _, _, hlay'⟩ := hlay
    subst hoffs hbuf
    rcases List.mem_cons.mp ho with rfl | ho2
    · omega
    · have := ih offs' buf' (k + enc.length) hlay' o ho2
      simp only [List.length_append]
      omega

theorem ObjLayout_ub (table : PsbRefs) : ∀ (es : List (RStr × PsbValue))
    (nrs offs buf : List Nat) (k : Nat), ObjLayout table k es nrs offs buf →
    ∀ o ∈ offs, o ≤ k + buf.length := by
  intro es
  induction es with
  | nil =>
    intro nrs offs buf k hlay o ho
    rw [hlay.2.1] at ho
    cases ho
  | cons e rest ih =>
    intro nrs offs buf k hlay o ho
    obtain ⟨idx, enc, nrs', offs', buf', _, hoffs, hbuf, _, _, _, _, h1, _, _, hlay'⟩ := hlay
    subst hoffs hbuf
    rcases List.mem_cons.mp ho with rfl | ho2
    · omega
    · have := ih nrs' offs' buf' (k + enc.length) hlay' o ho2
      simp only [List.length_append]
      omega

theorem ChildrenLayout_chain (table : PsbRefs) : ∀ (xs : List PsbValue)
    (offs buf : List Nat) (k : Nat), ChildrenLayout table k xs offs buf →
    List.Chain' (fun a b => a < b) offs := by
  intro xs
  induction xs with
  | nil =>
    intro offs buf k hlay
    rw [hlay.1]
    exact List.chain'_nil
  | cons v rest ih =>
    intro offs buf k hlay
    obtain ⟨enc, offs', buf', hoffs, _, _, h1, _, _, hlay'⟩ := hlay
    subst hoffs
    refine List.chain'_cons'.mpr ⟨?_, ih offs' buf' (k + enc.length) hlay'⟩
    intro b hb
    have hmem : b ∈ offs' := List.mem_of_mem_head? hb
    have := ChildrenLayout_lb table rest offs' buf' (k + enc.length) hlay' b hmem
    omega

theorem ObjLayout_chain (table : PsbRefs) : ∀ (es : List (RStr × PsbValue))
    (nrs offs buf : List Nat) (k : Nat), ObjLayout table k es nrs offs buf →
    List.Chain' (fun a b => a < b) offs := by
  intro es
  induction es with
  | nil =>
    intro nrs offs buf k hlay
    rw [hlay.2.1]
    exact List.chain'_nil
  | cons e rest ih =>
    intro nrs offs buf k hlay
    obtain ⟨idx, enc, nrs', offs', buf', _, hoffs, _, _, _, _, _, h1, _, _, hlay'⟩ := hlay
    subst hoffs
    refine List.chain'_cons'.mpr ⟨?_, ih nrs' offs' buf' (k + enc.length) hlay'⟩
    intro b hb
    have hmem : b ∈ offs' := List.mem_of_mem_head? hb
    have := ObjLayout_lb table rest nrs' offs' buf' (k + enc.length) hlay' b hmem
    omega

theorem chain_max?_getLast? : ∀ (l : List Nat),
    List.Chain' (fun a b => a < b) l → l.max? = l.getLast? := by
  intro l
  induction l with
  | nil => intro _; rfl
  | cons x xs ih =>
    intro h
    cases xs with
    | nil => rfl
    | cons y ys =>
      obtain ⟨hxy, htl⟩ := List.chain'_cons.mp h
      have h1 : (x :: y :: ys).max? = (y :: ys).max? := by
        simp [List.max?, max_eq_right (le_of_lt hxy)]
      rw [h1, List.getLast?_cons_cons]
      exact ih htl

theorem ObjLayout_nrs_lt (table : PsbRefs) : ∀ (es : List (RStr × PsbValue))
    (nrs offs buf : List Nat) (k : Nat), ObjLayout table k es nrs offs buf →
    ∀ i ∈ nrs, i < table.names.length := by
  intro es
  induction es with
  | nil =>
    intro nrs offs buf k hlay i hi
    rw [hlay.1] at hi
    cases hi
  | cons e rest ih =>
    intro nrs offs buf k hlay i hi
    obtain ⟨idx, enc, nrs', offs', buf', hnrs, _, _, _, _, hlt, _, _, _, _, hlay'⟩ := hlay
    subst hnrs
    rcases List.mem_cons.mp hi with rfl | hi2
    · exact hlt
    · exact ih nrs' offs' buf' (k + enc.length) hlay' i hi2

theorem uintArrayGetN_le8 (xs : List Nat) : PsbUintArray.getN xs ≤ 8 :=
  max_le (getUintN_le8 _) (by omega)

theorem referenceWriteBytes_length (r : Nat) :
    (PsbReference.writeBytes r).length = PsbReference.getN r := by
  unfold PsbReference.writeBytes
  exact writeUint_length _ _ (by unfold PsbReference.getN; exact getUintN_ge1 r)

theorem encode_decode_rt (table : PsbRefs) (hnames : table.names.length < U64M) :
    ∀ (N : Nat) (v : PsbValue), sizeOf v ≤ N → wfV v = true →
      keysOkV table v = true → maxEncSize v < 9223372036854775808 →
      ∃ enc, PsbValue.writeBytesRefs table v = .ok enc ∧ 1 ≤ enc.length ∧
        enc.length ≤ maxEncSize v ∧ DecSpec table enc v := by
  have hU : U64M = 18446744073709551616 := rfl
  intro N
  induction N with
  | zero =>
    intro v hsz
    exact absurd hsz (by cases v <;> simp)
  | succ N ih =>
    intro v hsz hwf hkeys hmax
    cases v with
    | none =>
      refine ⟨[0x00], by unfold PsbValue.writeBytesRefs PsbValue.writeBytes; rfl,
        by simp, by decide, ?_⟩
      exact decSpec_singleByte table 0x00 .none (by decide) (by decide) (fun s => rfl)
    | null =>
      refine ⟨[0x01], by unfold PsbValue.writeBytesRefs PsbValue.writeBytes; rfl,
        by simp, by decide, ?_⟩
      exact decSpec_singleByte table 0x01 .null (by decide) (by decide) (fun s => rfl)
    | bool b =>
      cases b with
      | false =>
        refine ⟨[0x02], by unfold PsbValue.writeBytesRefs PsbValue.writeBytes; rfl,
          by simp, by decide, ?_⟩
        exact decSpec_singleByte table 0x02 (.bool false) (by decide) (by decide)
          (fun s => rfl)
      | true =>
        refine ⟨[0x03], by unfold PsbValue.writeBytesRefs PsbValue.writeBytes; rfl,
          by simp, by decide, ?_⟩
        exact decSpec_singleByte table 0x03 (.bool true) (by decide) (by decide)
          (fun s => rfl)
    | number n =>
      cases n with
      | integer i =>
        simp only [wfV, Bool.and_eq_true, decide_eq_true_eq] at hwf
        obtain ⟨⟨hi0, hlo⟩, hhi⟩ := hwf
        obtain ⟨hn1, hn7, _, _⟩ := getN_bounds7 i hlo hhi
        have hplen : (PsbNumber.writeInteger (PsbNumber.getN i) i).length
            = PsbNumber.getN i := by
          unfold PsbNumber.writeInteger
          exact writeUint_length _ _ (by omega)
        refine ⟨(0x04 + PsbNumber.getN i) :: PsbNumber.writeInteger (PsbNumber.getN i) i,
          ?_, by simp, ?_, ?_⟩
        · unfold PsbValue.writeBytesRefs PsbValue.writeBytes PsbNumber.writeBytes
          simp only [hi0, if_false]
        · have hme : maxEncSize (.number (.integer i)) = 10 := rfl
          simp only [List.length_cons, hplen, hme]
          omega
        · refine decSpec_of_fromBytes table _ _ _ (by omega) (by omega) ?_
          intro D p tail hD
          rw [fromBytes_integer i hlo hhi (by simpa using hD)]
          refine congrArg RRes.ok (Prod.ext ?_ (Prod.ext rfl ?_))
          · simp [hplen]
          · simp only [BStream.mk.injEq, List.length_cons, hplen]
            exact ⟨trivial, by omega⟩
      | double d =>
        simp only [wfV, decide_eq_true_eq] at hwf
        refine ⟨0x1f :: leBytes 8 d, ?_, by simp, ?_, ?_⟩
        · unfold PsbValue.writeBytesRefs PsbValue.writeBytes PsbNumber.writeBytes
          rfl
        · have hme : maxEncSize (.number (.double d)) = 10 := rfl
          simp only [List.length_cons, leBytes_length, hme]
          omega
        · refine decSpec_of_fromBytes table _ _ _ (by decide) (by decide) ?_
          intro D p tail hD
          rw [fromBytes_double d hwf (by simpa using hD)]
          refine congrArg RRes.ok (Prod.ext ?_ (Prod.ext rfl ?_))
          · simp [leBytes_length]
          · simp only [BStream.mk.injEq, List.length_cons, leBytes_length]
      | float f =>
        simp only [wfV, Bool.and_eq_true, Bool.or_eq_true, Bool.not_eq_true',
          decide_eq_true_eq] at hwf
        obtain ⟨hflt, hfz⟩ := hwf
        by_cases hz : f32IsZero f = true
        · have hf0 : f = 0 := by
            rcases hfz with h | h
            · rw [hz] at h; cases h
            · exact h
          subst hf0
          refine ⟨[0x1d], ?_, by simp, by decide, ?_⟩
          · unfold PsbValue.writeBytesRefs PsbValue.writeBytes PsbNumber.writeBytes
            rfl
          · exact decSpec_singleByte table 0x1d (.number (.float 0)) (by decide)
              (by decide) (fun s => rfl)
        · refine ⟨0x1e :: leBytes 4 f, ?_, by simp, ?_, ?_⟩
          · unfold PsbValue.writeBytesRefs PsbValue.writeBytes PsbNumber.writeBytes
            simp only [hz, Bool.false_eq_true, if_false]
          · have hme : maxEncSize (.number (.float f)) = 10 := rfl
            simp only [List.length_cons, leBytes_length, hme]
            omega
          · refine decSpec_of_fromBytes table _ _ _ (by decide) (by decide) ?_
            intro D p tail hD
            rw [fromBytes_float f hflt (by simpa using hD)]
            refine congrArg RRes.ok (Prod.ext ?_ (Prod.ext rfl ?_))
            · simp [leBytes_length]
            · simp only [BStream.mk.injEq, List.length_cons, leBytes_length]
    | intArray xs =>
      simp only [wfV, List.all_eq_true, decide_eq_true_eq] at hwf
      have hme : maxEncSize (.intArray xs) = 11 + 8 * xs.length := rfl
      have hlen : xs.length < U64M := by rw [hU]; omega
      have hwbl := uintArrayWriteBytes_length xs
      have hg8 := uintArrayGetN_le8 xs
      have hi8 : PsbUintArray.getItemN xs ≤ 8 := by
        unfold PsbUintArray.getItemN; exact getUintN_le8 _
      have hmul : PsbUintArray.getItemN xs * xs.length ≤ 8 * xs.length :=
        Nat.mul_le_mul_right _ hi8
      refine ⟨(0x0C + PsbUintArray.getN xs) :: PsbUintArray.writeBytes xs, ?_,
        by simp, ?_, ?_⟩
      · unfold PsbValue.writeBytesRefs PsbValue.writeBytes
        rfl
      · simp only [List.length_cons, hwbl, hme]
        omega
      · have hn1 : 1 ≤ PsbUintArray.getN xs := le_max_right _ _
        refine decSpec_of_fromBytes table _ _ _ (by omega) (by omega) ?_
        intro D p tail hD
        rw [fromBytes_intArray xs hwf hlen (by simpa using hD)]
        refine congrArg RRes.ok (Prod.ext ?_ (Prod.ext rfl ?_))
        · simp
        · simp only [BStream.mk.injEq, List.length_cons]
          exact ⟨trivial, by omega⟩
    | string s =>
      simp only [wfV] at hwf
      cases hwf
    | stringRef r =>
      simp only [wfV, decide_eq_true_eq] at hwf
      have hrl := referenceWriteBytes_length r
      have hn4 : PsbReference.getN r ≤ 4 := getUintN_le4 r hwf
      have hn1 : 1 ≤ PsbReference.getN r := getUintN_ge1 r
      refine ⟨(0x14 + PsbReference.getN r) :: PsbReference.writeBytes r, ?_,
        by simp, ?_, ?_⟩
      · unfold PsbValue.writeBytesRefs PsbValue.writeBytes
        rfl
      · have hme : maxEncSize (.stringRef r) = 10 := rfl
        simp only [List.length_cons, hrl, hme]
        omega
      · refine decSpec_of_fromBytes table _ _ _ (by omega) (by omega) ?_
        intro D p tail hD
        rw [fromBytes_stringRef r hwf (by simpa using hD)]
        refine congrArg RRes.ok (Prod.ext ?_ (Prod.ext rfl ?_))
        · simp [hrl]
        · simp only [BStream.mk.injEq, List.length_cons, hrl]
          exact ⟨trivial, by omega⟩
    | resource r =>
      simp only [wfV, decide_eq_true_eq] at hwf
      have hrl := referenceWriteBytes_length r
      have hn4 : PsbReference.getN r ≤ 4 := getUintN_le4 r hwf
      have hn1 : 1 ≤ PsbReference.getN r := getUintN_ge1 r
      refine ⟨(0x18 + PsbReference.getN r) :: PsbReference.writeBytes r, ?_,
        by simp, ?_, ?_⟩
      · unfold PsbValue.writeBytesRefs PsbValue.writeBytes
        rfl
      · have hme : maxEncSize (.resource r) = 10 := rfl
        simp only [List.length_cons, hrl, hme]
        omega
      · refine decSpec_of_fromBytes table _ _ _ (by omega) (by omega) ?_
        intro D p tail hD
        rw [fromBytes_resource r hwf (by simpa using hD)]
        refine congrArg RRes.ok (Prod.ext ?_ (Prod.ext rfl ?_))
        · simp [hrl]
        · simp only [BStream.mk.injEq, List.length_cons, hrl]
          exact ⟨trivial, by omega⟩
    | extraResource r =>
      simp only [wfV, decide_eq_true_eq] at hwf
      have hrl := referenceWriteBytes_length r
      have hn4 : PsbReference.getN r ≤ 4 := getUintN_le4 r hwf
      have hn1 : 1 ≤ PsbReference.getN r := getUintN_ge1 r
      refine ⟨(0x21 + PsbReference.getN r) :: PsbReference.writeBytes r, ?_,
        by simp, ?_, ?_⟩
      · unfold PsbValue.writeBytesRefs PsbValue.writeBytes
        rfl
      · have hme : maxEncSize (.extraResource r) = 10 := rfl
        simp only [List.length_cons, hrl, hme]
        omega
      · refine decSpec_of_fromBytes table _ _ _ (by omega) (by omega) ?_
        intro D p tail hD
        rw [fromBytes_extraResource r hwf (by simpa using hD)]
        refine congrArg RRes.ok (Prod.ext ?_ (Prod.ext rfl ?_))
        · simp [hrl]
        · simp only [BStream.mk.injEq, List.length_cons, hrl]
          exact ⟨trivial, by omega⟩
    | compilerNumber =>
      refine ⟨[0x80], by unfold PsbValue.writeBytesRefs PsbValue.writeBytes; rfl,
        by simp, by decide, ?_⟩
      exact decSpec_singleByte table 0x80 .compilerNumber (by decide) (by decide)
        (fun s => rfl)
    | compilerString =>
      refine ⟨[0x81], by unfold PsbValue.writeBytesRefs PsbValue.writeBytes; rfl,
        by simp, by decide, ?_⟩
      exact decSpec_singleByte table 0x81 .compilerString (by decide) (by decide)
        (fun s => rfl)
    | compilerResource =>
      refine ⟨[0x82], by unfold PsbValue.writeBytesRefs PsbValue.writeBytes; rfl,
        by simp, by decide, ?_⟩
      exact decSpec_singleByte table 0x82 .compilerResource (by decide) (by decide)
        (fun s => rfl)
    | compilerDecimal =>
      simp only [wfV] at hwf
      cases hwf
    | compilerArray =>
      refine ⟨[0x84], by unfold PsbValue.writeBytesRefs PsbValue.writeBytes; rfl,
        by simp, by decide, ?_⟩
      exact decSpec_singleByte table 0x84 .compilerArray (by decide) (by decide)
        (fun s => rfl)
    | compilerBool =>
      refine ⟨[0x85], by unfold PsbValue.writeBytesRefs PsbValue.writeBytes; rfl,
        by simp, by decide, ?_⟩
      exact decSpec_singleByte table 0x85 .compilerBool (by decide) (by decide)
        (fun s => rfl)
    | compilerBinaryTree =>
      refine ⟨[0x86], by unfold PsbValue.writeBytesRefs PsbValue.writeBytes; rfl,
        by simp, by decide, ?_⟩
      exact decSpec_singleByte table 0x86 .compilerBinaryTree (by decide) (by decide)
        (fun s => rfl)
    | list xs =>
      have hwf' : wfList xs = true := by simpa [wfV] using hwf
      have hkeys' : keysOkList table xs = true := by simpa [keysOkV] using hkeys
      have hme : maxEncSize (.list xs) = 12 + 8 * xs.length + sizeList xs := rfl
      have hszl : sizeOf (PsbValue.list xs) = 1 + sizeOf xs := by simp
      have hall : ∀ x ∈ xs, ∃ enc, PsbValue.writeBytesRefs table x = .ok enc ∧
          1 ≤ enc.length ∧ enc.length ≤ maxEncSize x ∧ DecSpec table enc x := by
        intro x hx
        have hszx : sizeOf x ≤ N := by
          have h1 := List.sizeOf_lt_of_mem hx
          omega
        exact ih x hszx (wfList_mem xs hwf' x hx) (keysOkList_mem table xs hkeys' x hx)
          (by have := maxEncSize_le_sizeList xs x hx; omega)
      obtain ⟨offs, buf, hwc, hlay, hbl, hol⟩ := writeChildren_spec table xs 0
        (by omega) hall
      have hw : PsbValue.writeBytesRefs table (.list xs)
          = .ok ((0x20 :: ((0x0C + PsbUintArray.getN offs) :: PsbUintArray.writeBytes offs))
            ++ buf) := by
        unfold PsbValue.writeBytesRefs
        rw [hwc, RRes.bind_ok]
      have hwbl := uintArrayWriteBytes_length offs
      have hg8 := uintArrayGetN_le8 offs
      have hi8 : PsbUintArray.getItemN offs ≤ 8 := by
        unfold PsbUintArray.getItemN; exact getUintN_le8 _
      have hmul : PsbUintArray.getItemN offs * offs.length ≤ 8 * offs.length :=
        Nat.mul_le_mul_right _ hi8
      have hoffsU : ∀ o ∈ offs, o < U64M := by
        intro o ho
        have h1 := ChildrenLayout_ub table xs offs buf 0 hlay o ho
        rw [hU]
        omega
      have hlenU : offs.length < U64M := by rw [hU, hol]; omega
      refine ⟨_, hw, by simp, ?_, ?_⟩
      · simp only [List.length_append, List.length_cons, hwbl, hme]
        omega
      · intro fuel D p tail hfuel hD
        cases fuel with
        | zero => exact absurd hfuel (by omega)
        | succ fuel1 =>
          unfold PsbValue.fromBytesRefs
          have hD1 : D.drop p = 0x20 :: (((0x0C + PsbUintArray.getN offs)
              :: (PsbUintArray.writeBytes offs ++ (buf ++ tail)))) := by
            simpa [List.append_assoc] using hD
          rw [drop_cons_readU8 hD1]
          simp only [RRes.bind_ok]
          rw [if_pos trivial]
          have hD2 : D.drop (p + 1) = (0x0C + PsbUintArray.getN offs)
              :: (PsbUintArray.writeBytes offs ++ (buf ++ tail)) :=
            drop_cons_succ hD1
          rw [fromBytes_intArray offs hoffsU hlenU hD2]
          simp only [RRes.bind_ok]
          by_cases hxs0 : xs = []
          · subst hxs0
            obtain ⟨ho0, hb0⟩ : offs = [] ∧ buf = [] := hlay
            rw [if_pos (by rw [ho0]; decide)]
            subst ho0 hb0
            refine congrArg RRes.ok (Prod.ext ?_ (Prod.ext rfl ?_))
            · simp
            · simp only [BStream.mk.injEq]
              exact ⟨trivial, by simp; omega⟩
          · have hoffsne : offs ≠ [] := by
              intro h0
              apply hxs0
              apply List.length_eq_zero.mp
              rw [h0] at hol
              simpa using hol.symm
            rw [if_neg (by
              intro hlt
              exact hoffsne (List.length_eq_zero.mp (by omega)))]
            have hchain := ChildrenLayout_chain table xs offs buf 0 hlay
            obtain ⟨m, hm⟩ : ∃ m, offs.max? = Option.some m := by
              cases hq : offs.max? with
              | none => exact absurd (List.max?_eq_none_iff.mp hq) hoffsne
              | some m => exact ⟨m, rfl⟩
            have hlast : offs.getLast? = Option.some m := by
              rw [← chain_max?_getLast? offs hchain]
              exact hm
            rw [hm]
            simp only []
            unfold listChildren
            have hfuelc : ∀ x ∈ xs, sizeOf x < fuel1 := by
              intro x hx
              have h1 := List.sizeOf_lt_of_mem hx
              omega
            have hanchor : D.drop ((p + 1 + 1 + (PsbUintArray.writeBytes offs).length) + 0)
                = buf ++ tail := by
              rw [Nat.add_zero]
              exact drop_append_past (drop_cons_succ hD2)
            rw [children_decode table fuel1 D
              (p + 1 + 1 + (PsbUintArray.writeBytes offs).length) tail m xs offs buf 0
              [] 0 (p + 1 + 1 + (PsbUintArray.writeBytes offs).length) hlay hxs0 hfuelc
              hanchor hlast]
            simp only [RRes.bind_ok]
            refine congrArg RRes.ok (Prod.ext ?_ (Prod.ext ?_ ?_))
            · simp
              omega
            · simp
            · simp only [BStream.seekTo, BStream.mk.injEq]
              simp only [List.length_append, List.length_cons, List.length_nil]
              exact ⟨trivial, by omega⟩
    | object es =>
      simp only [wfV, Bool.and_eq_true] at hwf
      obtain ⟨hsort, hwfe⟩ := hwf
      have hkeys' : keysOkEntries table es = true := by simpa [keysOkV] using hkeys
      have hme : maxEncSize (.object es) = 23 + 16 * es.length + sizeEntries es := rfl
      have hszo : sizeOf (PsbValue.object es) = 1 + sizeOf es := by simp
      have hall : ∀ e ∈ es, ∃ enc, PsbValue.writeBytesRefs table e.2 = .ok enc ∧
          1 ≤ enc.length ∧ enc.length ≤ maxEncSize e.2 ∧ DecSpec table enc e.2 := by
        intro e he
        have hszx : sizeOf e.2 ≤ N := by
          have h1 := sizeOf_snd_lt_of_mem e es he
          omega
        exact ih e.2 hszx (wfEntries_mem es hwfe e he)
          (keysOkEntries_mem table es hkeys' e he)
          (by have := maxEncSize_le_sizeEntries es e he; omega)
      obtain ⟨nrs, offs, buf, hwc, hlay, hbl, hnl, hol⟩ :=
        writeObjectChildren_spec table es 0 (by omega) hkeys' hall
      have hsid : sortEntries es = es := sortEntries_sorted_id es hsort
      have hw : PsbValue.writeBytesRefs table (.object es)
          = .ok ((0x21 :: ((0x0C + PsbUintArray.getN nrs) :: PsbUintArray.writeBytes nrs))
            ++ ((0x0C + PsbUintArray.getN offs) :: PsbUintArray.writeBytes offs)
            ++ buf) := by
        unfold PsbValue.writeBytesRefs
        rw [hsid, hwc, RRes.bind_ok]
      have hwbl1 := uintArrayWriteBytes_length nrs
      have hwbl2 := uintArrayWriteBytes_length offs
      have hg81 := uintArrayGetN_le8 nrs
      have hg82 := uintArrayGetN_le8 offs
      have hi81 : PsbUintArray.getItemN nrs ≤ 8 := by
        unfold PsbUintArray.getItemN; exact getUintN_le8 _
      have hi82 : PsbUintArray.getItemN offs ≤ 8 := by
        unfold PsbUintArray.getItemN; exact getUintN_le8 _
      have hmul1 : PsbUintArray.getItemN nrs * nrs.length ≤ 8 * nrs.length :=
        Nat.mul_le_mul_right _ hi81
      have hmul2 : PsbUintArray.getItemN offs * offs.length ≤ 8 * offs.length :=
        Nat.mul_le_mul_right _ hi82
      have hnrsU : ∀ i ∈ nrs, i < U64M := by
        intro i hi
        have h1 := ObjLayout_nrs_lt table es nrs offs buf 0 hlay i hi
        omega
      have hoffsU : ∀ o ∈ offs, o < U64M := by
        intro o ho
        have h1 := ObjLayout_ub table es nrs offs buf 0 hlay o ho
        rw [hU]
        omega
      have hlen1U : nrs.length < U64M := by rw [hU, hnl]; omega
      have hlen2U : offs.length < U64M := by rw [hU, hol]; omega
      refine ⟨_, hw, by simp, ?_, ?_⟩
      · simp only [List.length_append, List.length_cons, hwbl1, hwbl2, hme]
        omega
      · intro fuel D p tail hfuel hD
        cases fuel with
        | zero => exact absurd hfuel (by omega)
        | succ fuel1 =>
          unfold PsbValue.fromBytesRefs
          have hD1 : D.drop p = 0x21 :: ((0x0C + PsbUintArray.getN nrs)
              :: (PsbUintArray.writeBytes nrs
                ++ ((0x0C + PsbUintArray.getN offs)
                  :: (PsbUintArray.writeBytes offs ++ (buf ++ tail))))) := by
            simpa [List.append_assoc] using hD
          rw [drop_cons_readU8 hD1]
          simp only [RRes.bind_ok]
          rw [if_neg (show ¬(0x21 : Nat) = 0x20 by omega)]
          rw [if_pos trivial]
          have hD2 : D.drop (p + 1) = (0x0C + PsbUintArray.getN nrs)
              :: (PsbUintArray.writeBytes nrs
                ++ ((0x0C + PsbUintArray.getN offs)
                  :: (PsbUintArray.writeBytes offs ++ (buf ++ tail)))) :=
            drop_cons_succ hD1
          rw [fromBytes_intArray nrs hnrsU hlen1U hD2]
          simp only [RRes.bind_ok]
          have hD3 : D.drop (p + 1 + 1 + (PsbUintArray.writeBytes nrs).length)
              = (0x0C + PsbUintArray.getN offs)
                :: (PsbUintArray.writeBytes offs ++ (buf ++ tail)) := by
            have := drop_append_past (drop_cons_succ hD2)
            exact this
          rw [fromBytes_intArray offs hoffsU hlen2U hD3]
          simp only [RRes.bind_ok]
          by_cases hes0 : es = []
          · subst hes0
            have hnrs0 : nrs = [] ∧ offs = [] ∧ buf = [] := hlay
            obtain ⟨hn0, ho0, hb0⟩ := hnrs0
            subst hn0 ho0 hb0
            rw [if_pos (by decide)]
            refine congrArg RRes.ok (Prod.ext ?_ (Prod.ext rfl ?_))
            · simp
              omega
            · simp only [BStream.mk.injEq]
              exact ⟨trivial, by simp; omega⟩
          · have hnrsne : nrs ≠ [] := by
              intro h0
              apply hes0
              apply List.length_eq_zero.mp
              rw [h0] at hnl
              simpa using hnl.symm
            have hoffsne : offs ≠ [] := by
              intro h0
              apply hes0
              apply List.length_eq_zero.mp
              rw [h0] at hol
              simpa using hol.symm
            rw [if_neg (by
              intro hlt
              exact hnrsne (List.length_eq_zero.mp (by omega)))]
            have hchain := ObjLayout_chain table es nrs offs buf 0 hlay
            obtain ⟨m, hm⟩ : ∃ m, offs.max? = Option.some m := by
              cases hq : offs.max? with
              | none => exact absurd (List.max?_eq_none_iff.mp hq) hoffsne
              | some m => exact ⟨m, rfl⟩
            have hlast : offs.getLast? = Option.some m := by
              rw [← chain_max?_getLast? offs hchain]
              exact hm
            rw [hm]
            simp only []
            unfold objectEntries
            have hfuelc : ∀ e ∈ es, sizeOf e.2 < fuel1 := by
              intro e he
              have h1 := sizeOf_snd_lt_of_mem e es he
              omega
            have hanchor : D.drop ((p + 1 + 1 + (PsbUintArray.writeBytes nrs).length + 1
                + (PsbUintArray.writeBytes offs).length) + 0) = buf ++ tail := by
              rw [Nat.add_zero]
              exact drop_append_past (drop_cons_succ hD3)
            rw [entries_decode table fuel1 D
              (p + 1 + 1 + (PsbUintArray.writeBytes nrs).length + 1
                + (PsbUintArray.writeBytes offs).length) tail m es nrs offs buf 0
              [] 0 (p + 1 + 1 + (PsbUintArray.writeBytes nrs).length + 1
                + (PsbUintArray.writeBytes offs).length) hlay hes0 hfuelc
              hanchor hlast]
            simp only [RRes.bind_ok]
            rw [show (([] : List (RStr × PsbValue)) ++ es) = es from by simp,
              objOfEntries_sorted es hsort]
            refine congrArg RRes.ok (Prod.ext ?_ (Prod.ext rfl ?_))
            · simp
              omega
            · simp only [BStream.seekTo, BStream.mk.injEq]
              simp only [List.length_append, List.length_cons, List.length_nil]
              exact ⟨trivial, by omega⟩

theorem strInsert_perm (x : RStr) (l : List RStr) :
    List.Perm (strInsert x l) (x :: l) := by
  induction l with
  | nil => rfl
  | cons y ys ih =>
    unfold strInsert
    by_cases h : strLt x y
    · simp [h]
    · simp only [h, if_false]
      exact (List.Perm.cons y ih).trans (List.Perm.swap x y ys)

theorem sortStrs_perm (l : List RStr) : List.Perm (sortStrs l) l := by
  induction l with
  | nil => rfl
  | cons x xs ih => exact (strInsert_perm x (sortStrs xs)).trans (List.Perm.cons x ih)

theorem sortStrs_mem (a : RStr) (l : List RStr) (h : a ∈ l) : a ∈ sortStrs l :=
  ((sortStrs_perm l).mem_iff).mpr h

theorem sortStrs_length (l : List RStr) : (sortStrs l).length = l.length :=
  (sortStrs_perm l).length_eq

mutual

/-- All object keys reachable in a value: the accumulator-free form of the
`collect_names` walk, used to state its membership property. -/
def keysV : PsbValue → List RStr
  | .object es => keysObj es
  | .list xs => keysList xs
  | _ => []

def keysObj : List (RStr × PsbValue) → List RStr
  | [] => []
  | (k, cv) :: rest => (keysV cv ++ [k]) ++ keysObj rest

def keysList : List PsbValue → List RStr
  | [] => []
  | v :: rest => keysV v ++ keysList rest

end

theorem collectNames_mem_aux : ∀ (M : Nat),
    (∀ v : PsbValue, sizeOf v ≤ M → ∀ acc a,
      a ∈ collectNamesV v acc ↔ a ∈ acc ∨ a ∈ keysV v) ∧
    (∀ es : List (RStr × PsbValue), sizeOf es ≤ M → ∀ acc a,
      a ∈ collectNamesObj es acc ↔ a ∈ acc ∨ a ∈ keysObj es) ∧
    (∀ xs : List PsbValue, sizeOf xs ≤ M → ∀ acc a,
      a ∈ collectNamesList xs acc ↔ a ∈ acc ∨ a ∈ keysList xs) := by
  intro M
  induction M with
  | zero =>
    refine ⟨?_, ?_, ?_⟩
    · intro v h
      exact absurd h (by cases v <;> simp)
    · intro es h
      exact absurd h (by cases es <;> simp)
    · intro xs h
      exact absurd h (by cases xs <;> simp)
  | succ M ihM =>
    obtain ⟨ihV, ihO, ihL⟩ := ihM
    refine ⟨?_, ?_, ?_⟩
    · intro v hv acc a
      cases v with
      | object es =>
        have hs : sizeOf (PsbValue.object es) = 1 + sizeOf es := by simp
        exact ihO es (by omega) acc a
      | list xs =>
        have hs : sizeOf (PsbValue.list xs) = 1 + sizeOf xs := by simp
        exact ihL xs (by omega) acc a
      | none => simp [collectNamesV, keysV]
      | null => simp [collectNamesV, keysV]
      | bool b => simp [collectNamesV, keysV]
      | number n => simp [collectNamesV, keysV]
      | intArray xs => simp [collectNamesV, keysV]
      | string s => simp [collectNamesV, keysV]
      | stringRef r => simp [collectNamesV, keysV]
      | resource r => simp [collectNamesV, keysV]
      | extraResource r => simp [collectNamesV, keysV]
      | compilerNumber => simp [collectNamesV, keysV]
      | compilerString => simp [collectNamesV, keysV]
      | compilerResource => simp [collectNamesV, keysV]
      | compilerDecimal => simp [collectNamesV, keysV]
      | compilerArray => simp [collectNamesV, keysV]
      | compilerBool => simp [collectNamesV, keysV]
      | compilerBinaryTree => simp [collectNamesV, keysV]
    · intro es he acc a
      cases es with
      | nil => simp [collectNamesObj, keysObj]
      | cons e rest =>
        obtain ⟨k, cv⟩ := e
        have hsz : sizeOf ((k, cv) :: rest) = 1 + (1 + sizeOf k + sizeOf cv)
            + sizeOf rest := by simp
        have h1 : a ∈ collectNamesObj ((k, cv) :: rest) acc
            ↔ a ∈ (if (collectNamesV cv acc).contains k then collectNamesV cv acc
                else collectNamesV cv acc ++ [k]) ∨ a ∈ keysObj rest := by
          exact ihO rest (by omega) _ a
        have h2 : a ∈ (if (collectNamesV cv acc).contains k then collectNamesV cv acc
            else collectNamesV cv acc ++ [k])
            ↔ a ∈ collectNamesV cv acc ∨ a = k := by
          by_cases hk : (collectNamesV cv acc).contains k
          · rw [if_pos hk]
            have hkm : k ∈ collectNamesV cv acc := by simpa using hk
            constructor
            · exact Or.inl
            · rintro (h | rfl)
              · exact h
              · exact hkm
          · rw [if_neg hk]
            simp
        have h3 : a ∈ collectNamesV cv acc ↔ a ∈ acc ∨ a ∈ keysV cv :=
          ihV cv (by omega) acc a
        rw [show collectNamesObj ((k, cv) :: rest) acc
          = collectNamesObj rest (if (collectNamesV cv acc).contains k
              then collectNamesV cv acc else collectNamesV cv acc ++ [k]) from rfl] at h1 ⊢
        rw [h1, h2, h3]
        simp only [keysObj, List.mem_append, List.mem_singleton]
        tauto
    · intro xs hx acc a
      cases xs with
      | nil => simp [collectNamesList, keysList]
      | cons v rest =>
        have hsz : sizeOf (v :: rest) = 1 + sizeOf v + sizeOf rest := by simp
        have h1 : a ∈ collectNamesList (v :: rest) acc
            ↔ a ∈ collectNamesV v acc ∨ a ∈ keysList rest :=
          ihL rest (by omega) _ a
        have h3 : a ∈ collectNamesV v acc ↔ a ∈ acc ∨ a ∈ keysV v :=
          ihV v (by omega) acc a
        rw [show collectNamesList (v :: rest) acc
          = collectNamesList rest (collectNamesV v acc) from rfl] at h1 ⊢
        rw [h1, h3]
        simp only [keysList, List.mem_append]
        tauto

theorem keysOk_of_mem : ∀ (M : Nat),
    (∀ v : PsbValue, sizeOf v ≤ M → ∀ table : PsbRefs,
      (∀ a ∈ keysV v, table.names.contains a = true) → keysOkV table v = true) ∧
    (∀ es : List (RStr × PsbValue), sizeOf es ≤ M → ∀ table : PsbRefs,
      (∀ a ∈ keysObj es, table.names.contains a = true)
        → keysOkEntries table es = true) ∧
    (∀ xs : List PsbValue, sizeOf xs ≤ M → ∀ table : PsbRefs,
      (∀ a ∈ keysList xs, table.names.contains a = true)
        → keysOkList table xs = true) := by
  intro M
  induction M with
  | zero =>
    refine ⟨?_, ?_, ?_⟩
    · intro v h
      exact absurd h (by cases v <;> simp)
    · intro es h
      exact absurd h (by cases es <;> simp)
    · intro xs h
      exact absurd h (by cases xs <;> simp)
  | succ M ihM =>
    obtain ⟨ihV, ihO, ihL⟩ := ihM
    refine ⟨?_, ?_, ?_⟩
    · intro v hv table hall
      cases v with
      | object es =>
        have hs : sizeOf (PsbValue.object es) = 1 + sizeOf es := by simp
        exact ihO es (by omega) table (by simpa [keysV] using hall)
      | list xs =>
        have hs : sizeOf (PsbValue.list xs) = 1 + sizeOf xs := by simp
        exact ihL xs (by omega) table (by simpa [keysV] using hall)
      | none => rfl
      | null => rfl
      | bool b => rfl
      | number n => rfl
      | intArray xs => rfl
      | string s => rfl
      | stringRef r => rfl
      | resource r => rfl
      | extraResource r => rfl
      | compilerNumber => rfl
      | compilerString => rfl
      | compilerResource => rfl
      | compilerDecimal => rfl
      | compilerArray => rfl
      | compilerBool => rfl
      | compilerBinaryTree => rfl
    · intro es he table hall
      cases es with
      | nil => rfl
      | cons e rest =>
        obtain ⟨k, cv⟩ := e
        have hsz : sizeOf ((k, cv) :: rest) = 1 + (1 + sizeOf k + sizeOf cv)
            + sizeOf rest := by simp
        have hkin : table.names.contains k = true :=
          hall k (by simp [keysObj])
        have hcv : keysOkV table cv = true :=
          ihV cv (by omega) table (fun a ha => hall a (by simp [keysObj, ha]))
        have hrest : keysOkEntries table rest = true :=
          ihO rest (by omega) table (fun a ha => hall a (by simp [keysObj, ha]))
        simp only [keysOkEntries, Bool.and_eq_true]
        exact ⟨⟨hkin, hcv⟩, hrest⟩
    · intro xs hx table hall
      cases xs with
      | nil => rfl
      | cons v rest =>
        have hsz : sizeOf (v :: rest) = 1 + sizeOf v + sizeOf rest := by simp
        have hv : keysOkV table v = true :=
          ihV v (by omega) table (fun a ha => hall a (by simp [keysList, ha]))
        have hrest : keysOkList table rest = true :=
          ihL rest (by omega) table (fun a ha => hall a (by simp [keysList, ha]))
        simp only [keysOkList, Bool.and_eq_true]
        exact ⟨hv, hrest⟩

theorem collect_len_aux : ∀ (M : Nat),
    (∀ v : PsbValue, sizeOf v ≤ M → ∀ acc,
      (collectNamesV v acc).length ≤ acc.length + maxEncSize v) ∧
    (∀ es : List (RStr × PsbValue), sizeOf es ≤ M → ∀ acc,
      (collectNamesObj es acc).length ≤ acc.length + es.length + sizeEntries es) ∧
    (∀ xs : List PsbValue, sizeOf xs ≤ M → ∀ acc,
      (collectNamesList xs acc).length ≤ acc.length + sizeList xs) := by
  intro M
  induction M with
  | zero =>
    refine ⟨?_, ?_, ?_⟩
    · intro v h
      exact absurd h (by cases v <;> simp)
    · intro es h
      exact absurd h (by cases es <;> simp)
    · intro xs h
      exact absurd h (by cases xs <;> simp)
  | succ M ihM =>
    obtain ⟨ihV, ihO, ihL⟩ := ihM
    refine ⟨?_, ?_, ?_⟩
    · intro v hv acc
      cases v with
      | object es =>
        have hs : sizeOf (PsbValue.object es) = 1 + sizeOf es := by simp
        have h1 := ihO es (by omega) acc
        have hme : maxEncSize (PsbValue.object es)
            = 23 + 16 * es.length + sizeEntries es := rfl
        show (collectNamesObj es acc).length ≤ _
        omega
      | list xs =>
        have hs : sizeOf (PsbValue.list xs) = 1 + sizeOf xs := by simp
        have h1 := ihL xs (by omega) acc
        have hme : maxEncSize (PsbValue.list xs)
            = 12 + 8 * xs.length + sizeList xs := rfl
        show (collectNamesList xs acc).length ≤ _
        omega
      | none => show acc.length ≤ acc.length + 10; omega
      | null => show acc.length ≤ acc.length + 10; omega
      | bool b => show acc.length ≤ acc.length + 10; omega
      | number n => show acc.length ≤ acc.length + 10; omega
      | intArray xs => show acc.length ≤ acc.length + (11 + 8 * xs.length); omega
      | string s => show acc.length ≤ acc.length + 10; omega
      | stringRef r => show acc.length ≤ acc.length + 10; omega
      | resource r => show acc.length ≤ acc.length + 10; omega
      | extraResource r => show acc.length ≤ acc.length + 10; omega
      | compilerNumber => show acc.length ≤ acc.length + 10; omega
      | compilerString => show acc.length ≤ acc.length + 10; omega
      | compilerResource => show acc.length ≤ acc.length + 10; omega
      | compilerDecimal => show acc.length ≤ acc.length + 10; omega
      | compilerArray => show acc.length ≤ acc.length + 10; omega
      | compilerBool => show acc.length ≤ acc.length + 10; omega
      | compilerBinaryTree => show acc.length ≤ acc.length + 10; omega
    · intro es he acc
      cases es with
      | nil =>
        show acc.length ≤ acc.length + [].length + sizeEntries []
        omega
      | cons e rest =>
        obtain ⟨k, cv⟩ := e
        have hsz : sizeOf ((k, cv) :: rest) = 1 + (1 + sizeOf k + sizeOf cv)
            + sizeOf rest := by simp
        have h1 := ihO rest (by omega)
          (if (collectNamesV cv acc).contains k then collectNamesV cv acc
            else collectNamesV cv acc ++ [k])
        have h2 : (if (collectNamesV cv acc).contains k then collectNamesV cv acc
            else collectNamesV cv acc ++ [k]).length
            ≤ (collectNamesV cv acc).length + 1 := by
          by_cases hk : (collectNamesV cv acc).contains k
          · rw [if_pos hk]
            omega
          · rw [if_neg hk]
            simp
        have h3 := ihV cv (by omega) acc
        have hse : sizeEntries ((k, cv) :: rest) = maxEncSize cv + sizeEntries rest := rfl
        have hln : ((k, cv) :: rest).length = rest.length + 1 := rfl
        show (collectNamesObj rest (if (collectNamesV cv acc).contains k
          then collectNamesV cv acc else collectNamesV cv acc ++ [k])).length ≤ _
        omega
    · intro xs hx acc
      cases xs with
      | nil =>
        show acc.length ≤ acc.length + sizeList []
        omega
      | cons v rest =>
        have hsz : sizeOf (v :: rest) = 1 + sizeOf v + sizeOf rest := by simp
        have h1 := ihL rest (by omega) (collectNamesV v acc)
        have h3 := ihV v (by omega) acc
        have hsl : sizeList (v :: rest) = maxEncSize v + sizeList rest := rfl
        show (collectNamesList rest (collectNamesV v acc)).length ≤ _
        omega

theorem gather_keysOk (v : PsbValue) : keysOkV (gatherRefsV v) v = true := by
  apply (keysOk_of_mem (sizeOf v)).1 v le_rfl
  intro a ha
  have hmem : a ∈ collectNamesV v [] :=
    ((collectNames_mem_aux (sizeOf v)).1 v le_rfl [] a).mpr (Or.inr ha)
  have hin : a ∈ sortStrs (collectNamesV v []) := sortStrs_mem _ _ hmem
  simpa [gatherRefsV] using hin

theorem gather_names_length (v : PsbValue) :
    (gatherRefsV v).names.length ≤ maxEncSize v := by
  have h := (collect_len_aux (sizeOf v)).1 v le_rfl []
  simpa [gatherRefsV, sortStrs_length] using h

/-- C1 (counterexamples): the unrestricted round-trip claim fails on plain
values.  `Integer(0)` encodes to the corrupt stream `[0x05]` whose decode
fails with `Io`; a `String` value encodes as a string reference and decodes
to `StringRef`, not `String`; `CompilerDecimal` encodes to `[0x83]` which
decode rejects; the width-8 integer `2^55` decodes to `2^55 − 1` under the
`1 << 64` release-mode wrap; and `StringRef(2^32)` takes a 5-byte width, so
its opcode `0x19` decodes as a 1-byte-wide `Resource`.  Each pair below is
the encoding of the value against its own gathered tables followed by the
decode of the produced bytes. -/
theorem roundTrip_counterexamples :
    (PsbValue.writeBytesRefs (gatherRefsV (.number (.integer 0))) (.number (.integer 0))
        = .ok [0x05]
      ∧ PsbValue.fromBytesRefs 9 (gatherRefsV (.number (.integer 0))) ⟨[0x05], 0⟩
        = .err .io)
    ∧ (PsbValue.writeBytesRefs (gatherRefsV (.string [97])) (.string [97])
        = .ok [0x15, 0]
      ∧ PsbValue.fromBytesRefs 9 (gatherRefsV (.string [97])) ⟨[0x15, 0], 0⟩
        = .ok (2, .stringRef 0, ⟨[0x15, 0], 2⟩))
    ∧ (PsbValue.writeBytesRefs (gatherRefsV .compilerDecimal) .compilerDecimal
        = .ok [0x83]
      ∧ PsbValue.fromBytesRefs 9 (gatherRefsV .compilerDecimal) ⟨[0x83], 0⟩
        = .err .invalidPSBValue)
    ∧ (PsbValue.writeBytesRefs (gatherRefsV (.number (.integer 36028797018963968)))
          (.number (.integer 36028797018963968))
        = .ok [0x0C, 0, 0, 0, 0, 0, 0, 0x80, 0]
      ∧ PsbValue.fromBytesRefs 9 (gatherRefsV (.number (.integer 36028797018963968)))
          ⟨[0x0C, 0, 0, 0, 0, 0, 0, 0x80, 0], 0⟩
        = .ok (9, .number (.integer 36028797018963967),
            ⟨[0x0C, 0, 0, 0, 0, 0, 0, 0x80, 0], 9⟩))
    ∧ (PsbValue.writeBytesRefs (gatherRefsV (.stringRef 4294967296))
          (.stringRef 4294967296)
        = .ok [0x19, 0, 0, 0, 0, 1]
      ∧ PsbValue.fromBytesRefs 9 (gatherRefsV (.stringRef 4294967296))
          ⟨[0x19, 0, 0, 0, 0, 1], 0⟩
        = .ok (2, .resource 0, ⟨[0x19, 0, 0, 0, 0, 1], 2⟩)) :=
  ⟨⟨by unfold PsbValue.writeBytesRefs; rfl, rfl⟩,
    ⟨by unfold PsbValue.writeBytesRefs; rfl, rfl⟩,
    ⟨by unfold PsbValue.writeBytesRefs; rfl, rfl⟩,
    ⟨by unfold PsbValue.writeBytesRefs; rfl, rfl⟩,
    ⟨by unfold PsbValue.writeBytesRefs; rfl, rfl⟩⟩

/-- C1 (amended): for every value `v` that contains no `String` value, no
`Integer` equal to 0 or of magnitude ≥ 2^55 (width 8), no reference index
≥ 2^32, no non-canonical zero `Float` pattern, no `Double` pattern ≥ 2^64
and no `CompilerDecimal`, whose objects are in canonical (strictly
key-sorted) form, and whose total encoded size stays below 2^63, encoding
`v` with `write_bytes_refs` against the name table gathered from `v` (the
sorted `collect_names` result) succeeds, and decoding the produced bytes
with `from_bytes_refs` against the same tables — at any recursion budget
above the value's depth — returns exactly `v`, consuming exactly the
encoded bytes. -/
theorem roundTrip_wf_values (v : PsbValue) (hwf : wfV v = true)
    (hsize : maxEncSize v < 9223372036854775808) :
    ∃ enc, PsbValue.writeBytesRefs (gatherRefsV v) v = .ok enc ∧
      ∀ fuel, sizeOf v < fuel →
        PsbValue.fromBytesRefs fuel (gatherRefsV v) ⟨enc, 0⟩
          = .ok (enc.length, v, ⟨enc, enc.length⟩) := by
  have hnames : (gatherRefsV v).names.length < U64M := by
    have h1 := gather_names_length v
    rw [U64M_eq]
    omega
  obtain ⟨enc, hw, h1, hle, hdec⟩ := encode_decode_rt (gatherRefsV v) hnames (sizeOf v) v
    le_rfl hwf (gather_keysOk v) hsize
  refine ⟨enc, hw, ?_⟩
  intro fuel hfuel
  have h2 := hdec fuel enc 0 [] hfuel (by simp)
  simpa using h2

/-- C1 (witness): the amended round-trip at the one-entry object
`{"a" ↦ Integer(300)}`. -/
theorem roundTrip_wf_values_witness :
    wfV (.object [([97], .number (.integer 300))]) = true ∧
      maxEncSize (.object [([97], .number (.integer 300))]) < 9223372036854775808 ∧
      (∃ enc, PsbValue.writeBytesRefs (gatherRefsV (.object [([97], .number (.integer 300))]))
          (.object [([97], .number (.integer 300))]) = .ok enc ∧
        ∀ fuel, sizeOf (PsbValue.object [([97], .number (.integer 300))]) < fuel →
          PsbValue.fromBytesRefs fuel (gatherRefsV (.object [([97], .number (.integer 300))]))
            ⟨enc, 0⟩
            = .ok (enc.length, .object [([97], .number (.integer 300))], ⟨enc, enc.length⟩)) :=
  ⟨by decide, by decide, roundTrip_wf_values _ (by decide) (by decide)⟩

/-- `TreeNode` in `src/types/binary_tree.rs`: the `BTreeMap<u8, TreeNode>`
children are embedded as an association list strictly sorted by key (the
map's iteration order), plus the `begin_pos` and `id` fields. -/
inductive TreeNode where
  | mk (children : List (Nat × TreeNode)) (beginPos : Nat) (id : Nat)

namespace TreeNode

def children : TreeNode → List (Nat × TreeNode)
  | .mk c _ _ => c

def beginPos : TreeNode → Nat
  | .mk _ bp _ => bp

/-- `TreeNode::new()`. -/
def new : TreeNode := .mk [] 0 0

/-- `min_value()` over the children keys (`None` ↦ caller's `unwrap_or(0)`). -/
def minValue (n : TreeNode) : Option Nat := (n.children.map Prod.fst).min?

/-- `max_value()` over the children keys. -/
def maxValue (n : TreeNode) : Option Nat := (n.children.map Prod.fst).max?

end TreeNode

namespace PsbBinaryTree

/-- `get_or_insert_mut` walking of `build_tree`, split per string: descend
the byte path creating missing nodes, then ensure the `0` terminator child
at the end.  `childInsert`/`childUpdate` keep the `BTreeMap`'s ascending
key order. -/
def childInsert (v : Nat) : List (Nat × TreeNode) → List (Nat × TreeNode)
  | [] => [(v, TreeNode.new)]
  | (k, m) :: tl =>
    if v < k then (v, TreeNode.new) :: (k, m) :: tl
    else if v = k then (k, m) :: tl
    else (k, m) :: childInsert v tl

/-- Sorted-insert-or-modify on the children association list: apply `f` to
the existing node at key `b`, or to a fresh `TreeNode::new` inserted at the
key's ascending position (`get_or_insert_mut`). -/
def childApply (b : Nat) (f : TreeNode → TreeNode) :
    List (Nat × TreeNode) → List (Nat × TreeNode)
  | [] => [(b, f TreeNode.new)]
  | (k, m) :: tl =>
    if b < k then (b, f TreeNode.new) :: (k, m) :: tl
    else if b = k then (k, f m) :: tl
    else (k, m) :: childApply b f tl

/-- One `for byte in data { get_or_insert_mut }; get_or_insert(0)` pass of
`PsbBinaryTree::build_tree` for a single string. -/
def insertStr (n : TreeNode) : List Nat → TreeNode
  | [] =>
    match n with
    | .mk c bp nid => .mk (childInsert 0 c) bp nid
  | b :: rest =>
    match n with
    | .mk c bp nid => .mk (childApply b (fun m => insertStr m rest) c) bp nid

/-- `PsbBinaryTree::build_tree`. -/
def buildTree (list : List (List Nat)) : TreeNode := list.foldl insertStr TreeNode.new

/-- `SafeIndexVec::set` (`src/safe_index_vec.rs`): resize with the default
`0` up to the index, then store. -/
def sivSet (v : List Nat) (i x : Nat) : List Nat :=
  (if v.length ≤ i then v ++ List.replicate (i + 1 - v.length) 0 else v).set i x

/-- First child loop of `make_sub_tree`: assign each child its tree id and
record the parent id in the `tree` array.  Returns the children paired with
their ids together with the updated `tree`; `offsets.get(...).unwrap()` is
a `panicked` on a missing entry. -/
def treeLoop1 (offsets : List Nat) (currentId minV beginPos : Nat) :
    List (Nat × TreeNode) → List Nat → PRes (List ((Nat × TreeNode) × Nat) × List Nat)
  | [], tree => .ok ([], tree)
  | (cv, child) :: rest, tree =>
    (if currentId = 0 ∨ minV < 1 then
        match offsets.get? currentId with
        | Option.some o => (.ok (cv + o) : PRes Nat)
        | Option.none => .panicked
      else .ok (cv - minV + beginPos)).bind fun nid =>
      (treeLoop1 offsets currentId minV beginPos rest (sivSet tree nid currentId)).bind
        fun r => .ok (((cv, child), nid) :: r.1, r.2)

/-- Second child loop of `make_sub_tree`: reserve the child's tree region,
then either resolve the finished string's list index (`child_value == 0`;
`position(..).unwrap()` is a `panicked` when the accumulated prefix is not
in the list — reachable when a name contains the byte 0) or store the
child's offset and `begin_pos`.  Each output entry carries the child, its
id, and the `begin_pos` for the recursion. -/
def treeLoop2 (list : List (List Nat)) (value : List Nat) :
    List ((Nat × TreeNode) × Nat) → List Nat × List Nat × List Nat →
    PRes (List ((Nat × TreeNode) × Nat × Nat) × (List Nat × List Nat × List Nat))
  | [], st => .ok ([], st)
  | ((cv, child), nid) :: rest, (offsets, tree, indexes) =>
    let childMax := (child.maxValue).getD 0
    let childMin := (child.minValue).getD 0
    let pt := if childMax < tree.length then (tree.length, tree)
      else
        let t2 := sivSet tree childMax 0
        (t2.length, t2)
    let tree2 := sivSet pt.2 (pt.1 + (childMax - childMin)) 0
    (if cv = 0 then
        match list.findIdx? (· = value) with
        | Option.some index =>
          (.ok (sivSet offsets nid index, tree2, sivSet indexes index nid, child.beginPos)
            : PRes (List Nat × List Nat × List Nat × Nat))
        | Option.none => .panicked
      else .ok (sivSet offsets nid (pt.1 - childMin), tree2, indexes, pt.1)).bind fun r =>
      (treeLoop2 list value rest (r.1, r.2.1, r.2.2.1)).bind fun rr =>
        .ok (((cv, child), nid, r.2.2.2) :: rr.1, rr.2)

/-- `PsbBinaryTree::make_sub_tree`, with the node's `id`/`begin_pos` passed
explicitly (the source reads them from the node, where the parent's pass
stored them) and the three `SafeIndexVec`s threaded as a triple
`(offsets, tree, indexes)`.  The third child loop is the `foldlM` recursing
into each child with the prefix extended by the child's byte.  `fuel`
bounds the recursion depth; `panicked` at fuel 0 is a model artifact never
reached when `fuel` exceeds the length of the longest name. -/
def makeSubTree (list : List (List Nat)) :
    Nat → List (Nat × TreeNode) → Nat → Nat → List Nat →
    List Nat × List Nat × List Nat → PRes (List Nat × List Nat × List Nat)
  | 0, _, _, _, _, _ => .panicked
  | fuel + 1, childrenL, currentId, beginPos, value, st =>
    let minV := ((childrenL.map Prod.fst).min?).getD 0
    (treeLoop1 st.1 currentId minV beginPos childrenL st.2.1).bind fun r1 =>
      (treeLoop2 list value r1.1 (st.1, r1.2, st.2.2)).bind fun r2 =>
        r2.1.foldlM
          (fun acc e =>
            makeSubTree list fuel e.1.2.children e.2.1 e.2.2 (value ++ [e.1.1]) acc)
          r2.2

/-- `PsbBinaryTree::write_bytes`: build the trie, seed `offsets` with the
pushed `1`, run `make_sub_tree` from the root, and write the three arrays
as `IntArray` values. -/
def writeBytes (fuel : Nat) (list : List (List Nat)) : PRes (List Nat) :=
  let root := buildTree list
  (makeSubTree list fuel root.children 0 0 [] ([1], [], [])).bind fun st =>
    (PsbValue.writeBytes (.intArray st.1)).bind fun b1 =>
      (PsbValue.writeBytes (.intArray st.2.1)).bind fun b2 =>
        (PsbValue.writeBytes (.intArray st.2.2)).bind fun b3 =>
          .ok (b1 ++ b2 ++ b3)

/-- One string recovery of `PsbBinaryTree::from_bytes`: start from
`tree[index]` and walk parent links until id 0, collecting
`id - offsets[tree[id]]` as a wrapping `u8` at each step, then reverse.
Array indexing out of range is the source's panic; the walk is budgeted by
`tree.length + 1` steps (the source loops forever on a cyclic `tree`, which
no written table contains). -/
def walkChain (offsets tree : List Nat) : Nat → Nat → List Nat → PRes (List Nat)
  | 0, _, _ => .panicked
  | fuel + 1, nid, buffer =>
    if nid = 0 then .ok buffer
    else
      match tree.get? nid with
      | Option.none => .panicked
      | Option.some next =>
        match offsets.get? next with
        | Option.none => .panicked
        | Option.some off =>
          walkChain offsets tree fuel next (buffer ++ [(nid + U64M - off) % U64M % 256])

def decodeOne (offsets tree : List Nat) (index : Nat) : PRes (List Nat) :=
  match tree.get? index with
  | Option.none => .panicked
  | Option.some id0 =>
    (walkChain offsets tree (tree.length + 1) id0 []).bind fun b => .ok b.reverse

/-- `PsbBinaryTree::from_bytes`: three `IntArray`s (offsets, tree, indexes),
then one recovered string per index. -/
def fromBytes (s : BStream) : PRes (Nat × List (List Nat) × BStream) :=
  (PsbValue.fromBytes s).bind fun r1 =>
    match r1.2.1 with
    | .intArray offsets =>
      (PsbValue.fromBytes r1.2.2).bind fun r2 =>
        match r2.2.1 with
        | .intArray tree =>
          (PsbValue.fromBytes r2.2.2).bind fun r3 =>
            match r3.2.1 with
            | .intArray indexes =>
              (indexes.foldlM
                (fun acc index =>
                  (decodeOne offsets tree index).bind fun b =>
                    (.ok (acc ++ [b]) : PRes (List (List Nat)))) []).bind fun l =>
                .ok (r1.1 + r2.1 + r3.1, l, r3.2.2)
            | _ => .err .invalidOffsetTable
        | _ => .err .invalidOffsetTable
    | _ => .err .invalidOffsetTable

/-- The claim's composition `decode(encode(S))`: write the trie and decode
the produced offsets/tree/indexes stream back into the string list. -/
def roundTrip (fuel : Nat) (list : List (List Nat)) : PRes (List (List Nat)) :=
  (writeBytes fuel list).bind fun bytes =>
    (fromBytes ⟨bytes, 0⟩).bind fun r => .ok r.2.1

end PsbBinaryTree

set_option maxRecDepth 16000 in
/-- C8: the name-trie round-trip claim fails: for `S = {[0x00]}` (one name
consisting of the single byte 0), `PsbBinaryTree::write_bytes` panics — the
trie uses id 0 as the string terminator, so the literal 0 byte's child node
takes the terminator branch of `make_sub_tree` with a one-byte-short
prefix, and `self.list.iter().position(..).unwrap()` unwraps `None` —
hence `decode(encode(S))` is not `S` for every set of distinct byte
strings.  On names free of the byte 0 the round-trip does hold, as the two
evaluated sets (one with a shared prefix) show. -/
theorem binaryTree_nul_name_panics :
    PsbBinaryTree.writeBytes 9 [[0]] = .panicked
      ∧ PsbBinaryTree.roundTrip 9 [[97], [98, 99]] = .ok [[97], [98, 99]]
      ∧ PsbBinaryTree.roundTrip 9 [[97, 98], [97, 99], [100]]
        = .ok [[97, 98], [97, 99], [100]] :=
  ⟨rfl, rfl, rfl⟩

end EmotePsb
